import Mathlib

/-!
Verification of the clumper grouped-aggregation and join engine
(`src/clumper/clump.py`) against its specification.

Python records (dicts from string keys to values) are modelled as
association lists in insertion order with unique keys; every
dict-producing operation goes through `pyDict`, which replays Python's
dict-construction semantics (later bindings update earlier ones in
place).  Values are modelled by the inductive `Val` (ints, exact
rationals standing in for Python numerics, strings, lists).  Python
`None` results are modelled by `Option.none`; operations that can raise
are `Except`-valued.
-/

namespace CL

/-- Values stored in records: Python ints, numeric results (as exact
rationals), strings, and lists. -/
inductive Val : Type where
  | int : Int → Val
  | rat : ℚ → Val
  | str : String → Val
  | list : List Val → Val

mutual

/-- Decidable equality for `Val` (the derive handler does not support
the nested `List Val`). -/
def Val.decEq : (a b : Val) → Decidable (a = b)
  | .int a, .int b =>
      if h : a = b then .isTrue (congrArg Val.int h)
      else .isFalse (fun hh => h (Val.int.inj hh))
  | .int _, .rat _ => .isFalse (fun h => Val.noConfusion h)
  | .int _, .str _ => .isFalse (fun h => Val.noConfusion h)
  | .int _, .list _ => .isFalse (fun h => Val.noConfusion h)
  | .rat _, .int _ => .isFalse (fun h => Val.noConfusion h)
  | .rat a, .rat b =>
      if h : a = b then .isTrue (congrArg Val.rat h)
      else .isFalse (fun hh => h (Val.rat.inj hh))
  | .rat _, .str _ => .isFalse (fun h => Val.noConfusion h)
  | .rat _, .list _ => .isFalse (fun h => Val.noConfusion h)
  | .str _, .int _ => .isFalse (fun h => Val.noConfusion h)
  | .str _, .rat _ => .isFalse (fun h => Val.noConfusion h)
  | .str a, .str b =>
      if h : a = b then .isTrue (congrArg Val.str h)
      else .isFalse (fun hh => h (Val.str.inj hh))
  | .str _, .list _ => .isFalse (fun h => Val.noConfusion h)
  | .list _, .int _ => .isFalse (fun h => Val.noConfusion h)
  | .list _, .rat _ => .isFalse (fun h => Val.noConfusion h)
  | .list _, .str _ => .isFalse (fun h => Val.noConfusion h)
  | .list a, .list b =>
      match Val.decEqList a b with
      | .isTrue h => .isTrue (congrArg Val.list h)
      | .isFalse h => .isFalse (fun hh => h (Val.list.inj hh))

/-- Decidable equality for lists of `Val`. -/
def Val.decEqList : (a b : List Val) → Decidable (a = b)
  | [], [] => .isTrue rfl
  | [], _ :: _ => .isFalse (fun h => List.noConfusion h)
  | _ :: _, [] => .isFalse (fun h => List.noConfusion h)
  | x :: xs, y :: ys =>
      match Val.decEq x y, Val.decEqList xs ys with
      | .isTrue h1, .isTrue h2 => .isTrue (by rw [h1, h2])
      | .isFalse h1, _ => .isFalse (fun h => h1 (List.cons.inj h).1)
      | _, .isFalse h2 => .isFalse (fun h => h2 (List.cons.inj h).2)

end

instance : DecidableEq Val := Val.decEq

/-- A record: a Python dict from string keys to values, in insertion
order.  Invariant (maintained by `pyDict`): keys are distinct. -/
abbrev Record : Type := List (String × Val)

/-- Lookup `d[k]` / `d.get(k)`: first binding of `k` (unique under the dict
invariant). -/
def pyLookup (d : Record) (k : String) : Option Val :=
  match d with
  | [] => none
  | e :: t => if e.1 = k then some e.2 else pyLookup t k

/-- Keys `d.keys()`. -/
def pyKeys (d : Record) : List String := d.map Prod.fst

/-- The Python dict invariant: all keys distinct. -/
abbrev NodupKeys (d : Record) : Prop := (pyKeys d).Nodup

/-- Assignment `d[k] = v` on a dict: update in place if the key exists, else append. -/
def pyInsert (d : Record) (k : String) (v : Val) : Record :=
  if (pyLookup d k).isSome then d.map (fun e => if e.1 = k then (k, v) else e)
  else d ++ [(k, v)]

/-- Build a dict from a sequence of bindings, later bindings updating
earlier ones in place — Python's dict-comprehension / `{**a, **b}`
semantics. -/
def pyDict (items : List (String × Val)) : Record :=
  items.foldl (fun d e => pyInsert d e.1 e.2) []

/-- Lookup of the *last* binding of `k` in a raw binding list: what a
Python dict built from those bindings stores under `k`. -/
def lookupLast (l : List (String × Val)) (k : String) : Option Val :=
  pyLookup l.reverse k

/-- Model of `list(set(l))`: deduplication. Python's set iteration order is
unspecified; we materialise first-occurrence order. -/
def pyDedup (l : List Val) : List Val :=
  l.foldl (fun acc x => if x ∈ acc then acc else acc ++ [x]) []

/-- The collection: an ordered sequence of records plus the sticky
group-key state (`Clumper.__init__`). -/
structure Clumper : Type where
  blob : List Record
  groups : List String
deriving DecidableEq

/-- The sequence of values found under `col` across all records,
skipping records where the column is absent —
`[d[key] for d in self if key in d.keys()]`. -/
def colValues (c : Clumper) (col : String) : List Val :=
  c.blob.filterMap (fun d => pyLookup d col)

/-- Model of `Clumper.summarise_col` with a reducer function: apply it to the
values present under `key` (`func([d[key] for d in self if key in
d.keys()])`). -/
def summarise_col {α : Type} (f : List Val → α) (key : String) (c : Clumper) : α :=
  f ((c.blob.filter (fun d => decide (key ∈ pyKeys d))).map
      (fun d => (pyLookup d key).getD (Val.int 0)))

/-- Python `sum(values)` over ints with start 0; any non-int raises `TypeError`
(modelled as `Except.error`). -/
def pySum (vs : List Val) : Except Unit Val :=
  match vs.mapM (fun v => match v with | Val.int n => some n | _ => none) with
  | some ns => Except.ok (Val.int (ns.foldl (· + ·) 0))
  | none => Except.error ()

/-- Python `statistics.mean` over ints, as an exact rational; non-numeric input
raises. -/
def pyMean (vs : List Val) : Except Unit Val :=
  match vs.mapM (fun v => match v with | Val.int n => some n | _ => none) with
  | some ns => Except.ok (Val.rat ((ns.foldl (· + ·) 0 : Int) / (ns.length : ℚ)))
  | none => Except.error ()

/-- Python `min(values)` over ints; empty or non-int input raises. -/
def pyMin (vs : List Val) : Except Unit Val :=
  match vs.mapM (fun v => match v with | Val.int n => some n | _ => none) with
  | some (n :: ns) => Except.ok (Val.int (ns.foldl min n))
  | _ => Except.error ()

/-- Python `max(values)` over ints; empty or non-int input raises. -/
def pyMax (vs : List Val) : Except Unit Val :=
  match vs.mapM (fun v => match v with | Val.int n => some n | _ => none) with
  | some (n :: ns) => Except.ok (Val.int (ns.foldl max n))
  | _ => Except.error ()

/-- Modelled from the spec: the `return_value_if_empty` decorator
(`clumper/decorators.py`, which is not under `src/`) returns the verb's
sentinel `value` when zero values are present under the requested
column (empty collection, or column absent from every record), instead
of calling the verb's body (§7 of the spec: callers "receive a
documented sentinel instead ... rather than propagating the error").
The sentinel *values* are the ones written in `src/clumper/clump.py`
(`value=None` for sum/mean/min/max, `value=0` for count/n_unique,
`value=[]` for unique); `Option.none` models Python `None`. -/
def return_value_if_empty {α : Type} (value : α) (body : Clumper → String → α)
    (c : Clumper) (col : String) : α :=
  if (colValues c col).isEmpty then value else body c col

/-- Verb `Clumper.sum` (sentinel `None`). -/
def Clumper.sum (c : Clumper) (col : String) : Except Unit (Option Val) :=
  return_value_if_empty (Except.ok none)
    (fun c col => (summarise_col pySum col c).map some) c col

/-- Verb `Clumper.mean` (sentinel `None`). -/
def Clumper.mean (c : Clumper) (col : String) : Except Unit (Option Val) :=
  return_value_if_empty (Except.ok none)
    (fun c col => (summarise_col pyMean col c).map some) c col

/-- Verb `Clumper.min` (sentinel `None`). -/
def Clumper.min (c : Clumper) (col : String) : Except Unit (Option Val) :=
  return_value_if_empty (Except.ok none)
    (fun c col => (summarise_col pyMin col c).map some) c col

/-- Verb `Clumper.max` (sentinel `None`). -/
def Clumper.max (c : Clumper) (col : String) : Except Unit (Option Val) :=
  return_value_if_empty (Except.ok none)
    (fun c col => (summarise_col pyMax col c).map some) c col

/-- Verb `Clumper.count` (sentinel `0`); body is `len`. -/
def Clumper.count (c : Clumper) (col : String) : Val :=
  return_value_if_empty (Val.int 0)
    (fun c col => summarise_col (fun vs => Val.int vs.length) col c) c col

/-- Verb `Clumper.n_unique` (sentinel `0`); body is `len(set(d))`. -/
def Clumper.n_unique (c : Clumper) (col : String) : Val :=
  return_value_if_empty (Val.int 0)
    (fun c col => summarise_col (fun vs => Val.int (pyDedup vs).length) col c) c col

/-- Verb `Clumper.unique` (sentinel `[]`); body is `list(set(d))`. -/
def Clumper.unique (c : Clumper) (col : String) : Val :=
  return_value_if_empty (Val.list [])
    (fun c col => summarise_col (fun vs => Val.list (pyDedup vs)) col c) c col

/-- The list of distinct values observed under `col` — the value
`Clumper.unique` wraps in `Val.list` (used by `_group_combos`, which
iterates `self.unique(c)`). -/
def uniqueVals (c : Clumper) (col : String) : List Val :=
  pyDedup (colValues c col)

/-- Python `itertools.product(*lists)`: Cartesian product, rightmost factor
varying fastest. -/
def pyProduct {α : Type} : List (List α) → List (List α)
  | [] => [[]]
  | xs :: xss => xs.flatMap (fun x => (pyProduct xss).map (x :: ·))

/-- Model of `Clumper._group_combos`: one dict per element of the Cartesian
product of the groups' distinct-value lists
(`{k: v for k, v in zip(self.groups, comb)}`). -/
def groupCombos (c : Clumper) : List Record :=
  (pyProduct (c.groups.map (uniqueVals c))).map (fun vs => pyDict (c.groups.zip vs))

/-- One `keep(lambda d: d[key] == value)` pass: `d[key]` raises
`KeyError` (modelled as `Except.error`) when a record lacks `key`. -/
def keepByKeyVal (blob : List Record) (k : String) (v : Val) :
    Except Unit (List Record) :=
  match blob with
  | [] => Except.ok []
  | d :: t =>
    match pyLookup d k with
    | none => Except.error ()
    | some w => (keepByKeyVal t k v).map (fun r => if w = v then d :: r else r)

/-- The sub-collection for one group combination: `Clumper._subsets`
applies `keep(lambda d: d[key] == value)` successively for each
key/value pair of the combination (starting from a copy, which
preserves `groups`). -/
def subsetForCombo (c : Clumper) (combo : Record) : Except Unit Clumper := do
  let b ← combo.foldlM (fun b e => keepByKeyVal b e.1 e.2) c.blob
  Except.ok ⟨b, c.groups⟩

/-- Model of `Clumper._subsets`: one sub-collection per group combination. -/
def subsetsE (c : Clumper) : Except Unit (List Clumper) :=
  (groupCombos c).mapM (subsetForCombo c)

/-- An aggregation spec, as in `agg(name=(col, func))`: output name,
source column, reducer.  Reducers are taken as (total) functions; the
string registry of `summarise_col` resolves names to such functions. -/
abbrev AggSpec : Type := String × String × (List Val → Val)

/-- The summary bindings one `agg` call produces over a collection in
scope: `{name: self.summarise_col(func, col) for ...}` in keyword
order. -/
def aggEntries (specs : List AggSpec) (c : Clumper) : List (String × Val) :=
  specs.map (fun s => (s.1, summarise_col s.2.2 s.2.1 c))

/-- Model of `Clumper.agg`.  Ungrouped: a single summary record over the whole
collection (the body in `src/clumper/clump.py`). Grouped: modelled from
the spec — the `grouped` decorator (`clumper/decorators.py`, not under
`src/`) applies the body to each subset produced by `_subsets` and
produces, per group combination in `_group_combos` order, one summary
record containing the group's key-combination values merged with the
spec results (the combination's bindings take precedence, so the
summary always carries its group-key values); the group key state is
preserved on the result (§4.3 of the spec). -/
def aggE (c : Clumper) (specs : List AggSpec) : Except Unit Clumper :=
  if c.groups.isEmpty then
    Except.ok ⟨[pyDict (aggEntries specs c)], c.groups⟩
  else do
    let subs ← subsetsE c
    Except.ok ⟨((groupCombos c).zip subs).map
        (fun p => pyDict (aggEntries specs p.2 ++ p.1)), c.groups⟩

/-- Condition of `Clumper._merge_dicts` for suffixing: a key present in both
records that is not a key name of the mapping (`keys_to_suffix`). -/
def toSuffix (d1 d2 : Record) (mapping : List (String × String)) (k : String) : Bool :=
  decide (k ∈ pyKeys d1) && decide (k ∈ pyKeys d2) &&
    !decide (k ∈ mapping.map Prod.fst ++ mapping.map Prod.snd)

/-- Model of `Clumper._merge_dicts`: suffix the colliding non-mapped keys on each
side, then `{**d1_new, **d2_new}`. -/
def mergeDicts (d1 d2 : Record) (mapping : List (String × String))
    (s1 s2 : String) : Record :=
  pyDict
    (pyDict (d1.map (fun e => (if toSuffix d1 d2 mapping e.1 then e.1 ++ s1 else e.1, e.2))) ++
     pyDict (d2.map (fun e => (if toSuffix d1 d2 mapping e.1 then e.1 ++ s2 else e.1, e.2))))

/-- The join match test used by `left_join` and `inner_join`:
`values_i = [d_i[k] for k in mapping.keys() if k in d_i.keys()]`,
`values_j = [d_j[k] for k in mapping.values() if k in d_j.keys()]`,
matched when `len(mapping) == len(values_i) == len(values_j)` and
`values_i == values_j`. -/
def matchB (di dj : Record) (mapping : List (String × String)) : Bool :=
  let vi := (mapping.map Prod.fst).filterMap (pyLookup di)
  let vj := (mapping.map Prod.snd).filterMap (pyLookup dj)
  decide (mapping.length = vi.length) && decide (vi.length = vj.length) &&
    decide (vi = vj)

/-- The merged records one left record produces against the right-hand
collection (the inner loop shared by both joins, in right-hand order). -/
def innerMatches (di : Record) (other : List Record)
    (mapping : List (String × String)) (s1 s2 : String) : List Record :=
  other.filterMap (fun dj =>
    if matchB di dj mapping then some (mergeDicts di dj mapping s1 s2) else none)

/-- Model of `Clumper.left_join`: all merged matches per left record; a left
record with no match is emitted once, as-is.  `create_new` preserves
`groups`. -/
def left_join (c other : Clumper) (mapping : List (String × String))
    (s1 s2 : String) : Clumper :=
  ⟨c.blob.flatMap (fun di =>
      if (innerMatches di other.blob mapping s1 s2).isEmpty then [di]
      else innerMatches di other.blob mapping s1 s2),
   c.groups⟩

/-- Model of `Clumper.inner_join`: all merged matches per left record. -/
def inner_join (c other : Clumper) (mapping : List (String × String))
    (s1 s2 : String) : Clumper :=
  ⟨c.blob.flatMap (fun di => innerMatches di other.blob mapping s1 s2), c.groups⟩

/-- Model of `Clumper.transform`: `agg` (group-aware) followed by a left join of
the original collection against the summaries on the identity mapping
of the group keys, with the default suffixes `"", "_joined"`.
Modelled from the spec insofar as the `grouped` decorator wrapping
`transform` is concerned: §4.4 states `transform` is equivalent to the
grouped aggregate engine followed by this left join onto the original
collection, which is exactly the body in `src/clumper/clump.py`. -/
def transformE (c : Clumper) (specs : List AggSpec) : Except Unit Clumper := do
  let ar ← aggE c specs
  Except.ok (left_join c ar (c.groups.map (fun k => (k, k))) "" "_joined")

/-- Python `blob[-i]` for `0 ≤ i < len(blob)` (`-0` is index `0`). -/
def pyNegGet (blob : List Record) (i : Nat) : Record :=
  if i = 0 then blob.getD 0 [] else blob.getD (blob.length - i) []

/-- Model of `Clumper.tail` for non-negative integer `n` (ValueError for other
inputs is outside the modelled domain): `n = min(n, len(self))`, then
`[self.blob[-i] for i in range(len(self) - n, len(self))]`. -/
def Clumper.tail (c : Clumper) (n : Nat) : Clumper :=
  let m := Min.min n c.blob.length
  ⟨(List.range' (c.blob.length - m) m).map (pyNegGet c.blob), c.groups⟩

/-- Model of `Clumper.head` for non-negative integer `n`:
`[self.blob[i] for i in range(min(n, len(self)))]`. -/
def Clumper.head (c : Clumper) (n : Nat) : Clumper :=
  ⟨(List.range (Min.min n c.blob.length)).map (fun i => c.blob.getD i []), c.groups⟩

/-!
State-passing forms of the verbs, recording the receiver's state after
the call (second component): `group_by` and `ungroup` assign
`self.groups` and return `self`, so their result *is* the mutated
receiver; every other verb constructs a fresh `Clumper` and leaves the
receiver untouched.
-/

/-- Verb `group_by`: `self.groups = cols; return self`. -/
def group_byS (c : Clumper) (cols : List String) : Clumper × Clumper :=
  (⟨c.blob, cols⟩, ⟨c.blob, cols⟩)

/-- Verb `ungroup`: `self.groups = tuple(); return self`. -/
def ungroupS (c : Clumper) : Clumper × Clumper :=
  (⟨c.blob, []⟩, ⟨c.blob, []⟩)

/-- Verb `head` with receiver post-state. -/
def headS (c : Clumper) (n : Nat) : Clumper × Clumper := (c.head n, c)

/-- Verb `tail` with receiver post-state. -/
def tailS (c : Clumper) (n : Nat) : Clumper × Clumper := (c.tail n, c)

/-- Verb `left_join` with receiver post-state. -/
def left_joinS (c other : Clumper) (mapping : List (String × String))
    (s1 s2 : String) : Clumper × Clumper :=
  (left_join c other mapping s1 s2, c)

/-- Verb `inner_join` with receiver post-state. -/
def inner_joinS (c other : Clumper) (mapping : List (String × String))
    (s1 s2 : String) : Clumper × Clumper :=
  (inner_join c other mapping s1 s2, c)

/-- Verb `agg` with receiver post-state. -/
def aggS (c : Clumper) (specs : List AggSpec) : Except Unit Clumper × Clumper :=
  (aggE c specs, c)

/-- Verb `transform` with receiver post-state. -/
def transformS (c : Clumper) (specs : List AggSpec) : Except Unit Clumper × Clumper :=
  (transformE c specs, c)

/-- The tuple of a record's values under the group keys (meaningful when
the record possesses all of them). -/
def dVals (d : Record) (g : List String) : List Val :=
  g.map (fun k => (pyLookup d k).getD (Val.int 0))

/-- The group a record belongs to: the records agreeing with it on every
group key. -/
def groupOf (c : Clumper) (d : Record) : Clumper :=
  ⟨c.blob.filter (fun d' => c.groups.all (fun k => decide (pyLookup d' k = pyLookup d k))), c.groups⟩

/-- The membership test of one group combination, as a predicate on
records. -/
def comboPred (g : List String) (vs : List Val) (d : Record) : Bool :=
  (g.zip vs).all (fun e => decide (pyLookup d e.1 = some e.2))

/-- The subset of a collection selected by one value tuple of the group
keys. -/
def subForVals (c : Clumper) (vs : List Val) : Clumper :=
  ⟨c.blob.filter (comboPred c.groups vs), c.groups⟩

/-- The grouped-aggregation summary record for one value tuple of the
group keys: the spec results over the subset, merged with the
combination's bindings (which take precedence). -/
def summaryFor (c : Clumper) (specs : List AggSpec) (vs : List Val) : Record :=
  pyDict (aggEntries specs (subForVals c vs) ++ c.groups.zip vs)

/-- A concrete integer-sum reducer (`"sum"` of the registry restricted
to int columns), used in concrete instances. -/
def sumIntF : List Val → Val :=
  fun vs => Val.int (vs.foldl (fun a v => a + (match v with | Val.int n => n | _ => 0)) 0)

/-- A concrete `"unique"` reducer, used in concrete instances. -/
def uniqListF : List Val → Val := fun vs => Val.list (pyDedup vs)

/-- The `tail` docstring's collection `[{'a':1},{'a':2},{'a':3},{'a':4}]`. -/
def tailExample : Clumper :=
  ⟨[[("a", Val.int 1)], [("a", Val.int 2)], [("a", Val.int 3)], [("a", Val.int 4)]], []⟩

/-- The spec §8.6 collection `[{'a':7},{'a':2,'b':7},{'a':3,'b':6},{'a':2,'b':7}]`. -/
def missingColExample : Clumper :=
  ⟨[[("a", Val.int 7)], [("a", Val.int 2), ("b", Val.int 7)],
    [("a", Val.int 3), ("b", Val.int 6)], [("a", Val.int 2), ("b", Val.int 7)]], []⟩

/-- The `transform` docstring's collection, grouped by `"a"`. -/
def doctestExample : Clumper :=
  ⟨[[("a", Val.int 1), ("b", Val.int 1)], [("a", Val.int 1), ("b", Val.int 2)],
    [("a", Val.int 2), ("b", Val.int 5)], [("a", Val.int 2), ("b", Val.int 5)]], ["a"]⟩

/-- A collection grouped by two keys where the combination `(1, 5)` is
observed in no record (exercising the empty-group edge case). -/
def emptyGroupExample : Clumper :=
  ⟨[[("a", Val.int 1), ("b", Val.int 4)], [("a", Val.int 2), ("b", Val.int 4)],
    [("a", Val.int 2), ("b", Val.int 5)]], ["a", "b"]⟩

/-- A grouped collection in which one record lacks the group key. -/
def missingGroupKeyExample : Clumper := ⟨[[("a", Val.int 1)], []], ["a"]⟩

/-- A record carrying a key that collides with the `"_joined"`-suffixed
name of an aggregation spec. -/
def suffixClashExample : Clumper :=
  ⟨[[("a", Val.int 1), ("s", Val.int 5), ("s_joined", Val.int 7)]], ["a"]⟩

/-! ### Dictionary toolkit -/

theorem pyLookup_nil (k : String) : pyLookup [] k = none := rfl

theorem pyLookup_cons (e : String × Val) (t : Record) (k : String) :
    pyLookup (e :: t) k = if e.1 = k then some e.2 else pyLookup t k := rfl

theorem pyLookup_append (l₁ l₂ : Record) (k : String) :
    pyLookup (l₁ ++ l₂) k = (pyLookup l₁ k).or (pyLookup l₂ k) := by
  induction l₁ with
  | nil => simp [pyLookup, Option.none_or]
  | cons e t ih =>
      by_cases h : e.1 = k
      · simp [pyLookup_cons, h]
      · simp [pyLookup_cons, h, ih]

theorem pyLookup_eq_none_iff (l : Record) (k : String) :
    pyLookup l k = none ↔ k ∉ pyKeys l := by
  induction l with
  | nil => simp [pyLookup, pyKeys]
  | cons e t ih =>
      unfold pyKeys
      rw [List.map_cons, pyLookup_cons]
      by_cases h : e.1 = k
      · rw [if_pos h]
        simp [h]
      · rw [if_neg h, List.mem_cons]
        unfold pyKeys at ih
        rw [ih]
        constructor
        · intro hk hc
          rcases hc with hc | hc
          · exact h hc.symm
          · exact hk hc
        · intro hk hc
          exact hk (Or.inr hc)

theorem pyLookup_isSome_iff (l : Record) (k : String) :
    (pyLookup l k).isSome ↔ k ∈ pyKeys l := by
  rcases h : pyLookup l k with _ | v
  · simpa using (pyLookup_eq_none_iff l k).mp h
  · simp only [Option.isSome_some, true_iff]
    by_contra hk
    rw [(pyLookup_eq_none_iff l k).mpr hk] at h
    exact Option.noConfusion h

theorem pyLookup_mem (l : Record) (k : String) (v : Val)
    (h : pyLookup l k = some v) : (k, v) ∈ l := by
  induction l with
  | nil => exact Option.noConfusion h
  | cons e t ih =>
      rw [pyLookup_cons] at h
      by_cases he : e.1 = k
      · rw [if_pos he] at h
        cases e
        cases he
        cases h
        exact List.mem_cons_self _ _
      · rw [if_neg he] at h
        exact List.mem_cons_of_mem _ (ih h)

theorem mapUpdate_lookup_self (t : Record) (k : String) (v : Val) :
    pyLookup (t.map (fun e => if e.1 = k then (k, v) else e)) k =
      (pyLookup t k).map (fun _ => v) := by
  induction t with
  | nil => rfl
  | cons e l ih =>
      simp only [List.map_cons, pyLookup_cons]
      by_cases he : e.1 = k
      · simp [he]
      · simp [he, ih]

theorem mapUpdate_lookup_other (t : Record) (k k' : String) (v : Val)
    (hne : k' ≠ k) :
    pyLookup (t.map (fun e => if e.1 = k then (k, v) else e)) k' = pyLookup t k' := by
  induction t with
  | nil => rfl
  | cons e l ih =>
      rw [List.map_cons, pyLookup_cons, pyLookup_cons]
      by_cases he : e.1 = k
      · rw [if_pos he, if_neg (by simpa using (Ne.symm hne)),
          if_neg (by rw [he]; exact Ne.symm hne), ih]
      · rw [if_neg he]
        by_cases he' : e.1 = k'
        · rw [if_pos (by simpa using he'), if_pos he']
        · rw [if_neg (by simpa using he'), if_neg he', ih]

theorem pyInsert_lookup_self (d : Record) (k : String) (v : Val) :
    pyLookup (pyInsert d k v) k = some v := by
  unfold pyInsert
  by_cases h : (pyLookup d k).isSome
  · rw [if_pos h, mapUpdate_lookup_self]
    rcases hl : pyLookup d k with _ | w
    · rw [hl] at h; simp at h
    · rfl
  · rw [if_neg h, pyLookup_append]
    simp only [Option.not_isSome_iff_eq_none] at h
    simp [h, pyLookup_cons, Option.none_or]

theorem pyInsert_lookup_other (d : Record) (k k' : String) (v : Val)
    (hne : k' ≠ k) : pyLookup (pyInsert d k v) k' = pyLookup d k' := by
  unfold pyInsert
  by_cases h : (pyLookup d k).isSome
  · rw [if_pos h, mapUpdate_lookup_other d k k' v hne]
  · rw [if_neg h, pyLookup_append]
    simp [pyLookup_cons, Ne.symm hne, pyLookup_nil]

theorem pyKeys_pyInsert (d : Record) (k k' : String) (v : Val) :
    k' ∈ pyKeys (pyInsert d k v) ↔ k' ∈ pyKeys d ∨ k' = k := by
  rw [← pyLookup_isSome_iff, ← pyLookup_isSome_iff]
  by_cases hne : k' = k
  · subst hne
    simp [pyInsert_lookup_self]
  · rw [pyInsert_lookup_other d k k' v hne]
    simp [hne]

theorem pyInsert_nodupKeys (d : Record) (k : String) (v : Val)
    (h : NodupKeys d) : NodupKeys (pyInsert d k v) := by
  unfold pyInsert
  by_cases hs : (pyLookup d k).isSome
  · rw [if_pos hs]
    have : pyKeys (d.map (fun e => if e.1 = k then (k, v) else e)) = pyKeys d := by
      unfold pyKeys
      rw [List.map_map]
      apply List.map_congr_left
      intro e _
      by_cases he : e.1 = k
      · simp [he]
      · simp [he]
    unfold NodupKeys
    rw [this]
    exact h
  · rw [if_neg hs]
    unfold NodupKeys pyKeys
    rw [List.map_append]
    rw [List.nodup_append]
    refine ⟨h, by simp, ?_⟩
    intro x hx hx'
    simp only [List.map_cons, List.map_nil, List.mem_cons, List.not_mem_nil, or_false] at hx'
    subst hx'
    rw [Option.not_isSome_iff_eq_none, pyLookup_eq_none_iff] at hs
    exact hs hx

theorem pyDict_nodupKeys (items : List (String × Val)) : NodupKeys (pyDict items) := by
  unfold pyDict
  suffices h : ∀ acc : Record, NodupKeys acc →
      NodupKeys (items.foldl (fun d e => pyInsert d e.1 e.2) acc) by
    exact h [] (by simp [NodupKeys, pyKeys])
  induction items with
  | nil => intro acc hacc; exact hacc
  | cons e t ih =>
      intro acc hacc
      exact ih _ (pyInsert_nodupKeys acc e.1 e.2 hacc)

theorem lookupLast_nil (k : String) : lookupLast [] k = none := rfl

theorem lookupLast_cons (e : String × Val) (t : List (String × Val)) (k : String) :
    lookupLast (e :: t) k =
      (lookupLast t k).or (if e.1 = k then some e.2 else none) := by
  unfold lookupLast
  rw [List.reverse_cons, pyLookup_append]
  rfl

theorem lookupLast_append (l₁ l₂ : List (String × Val)) (k : String) :
    lookupLast (l₁ ++ l₂) k = (lookupLast l₂ k).or (lookupLast l₁ k) := by
  unfold lookupLast
  rw [List.reverse_append, pyLookup_append]

theorem pyDict_lookup (items : List (String × Val)) (k : String) :
    pyLookup (pyDict items) k = lookupLast items k := by
  unfold pyDict
  suffices h : ∀ acc : Record,
      pyLookup (items.foldl (fun d e => pyInsert d e.1 e.2) acc) k =
        (lookupLast items k).or (pyLookup acc k) by
    rw [h []]
    simp [pyLookup]
  induction items with
  | nil => intro acc; simp [lookupLast_nil, Option.none_or]
  | cons e t ih =>
      intro acc
      rw [List.foldl_cons, ih (pyInsert acc e.1 e.2), lookupLast_cons]
      rcases hl : lookupLast t k with _ | w
      · simp only [Option.none_or]
        by_cases he : e.1 = k
        · subst he
          simp [pyInsert_lookup_self]
        · simp [he, pyInsert_lookup_other acc e.1 k e.2 (fun hh => he hh.symm)]
      · rfl

theorem pyKeys_pyDict_mem (items : List (String × Val)) (k : String) :
    k ∈ pyKeys (pyDict items) ↔ k ∈ items.map Prod.fst := by
  rw [← pyLookup_isSome_iff, pyDict_lookup]
  unfold lookupLast
  rw [pyLookup_isSome_iff]
  show k ∈ pyKeys items.reverse ↔ _
  unfold pyKeys
  rw [List.map_reverse, List.mem_reverse]

theorem lookupLast_eq_pyLookup (l : List (String × Val)) (k : String)
    (h : NodupKeys l) : lookupLast l k = pyLookup l k := by
  induction l with
  | nil => rfl
  | cons e t ih =>
      have hnd : NodupKeys t := by
        unfold NodupKeys pyKeys at h ⊢
        exact (List.nodup_cons.mp h).2
      rw [lookupLast_cons, pyLookup_cons, ih hnd]
      by_cases he : e.1 = k
      · subst he
        have : pyLookup t e.1 = none := by
          rw [pyLookup_eq_none_iff]
          unfold NodupKeys pyKeys at h
          exact (List.nodup_cons.mp h).1
        simp [this, Option.none_or]
      · rcases hl : pyLookup t k with _ | w <;> simp [he, Option.none_or]

theorem pyDict_eq_self (items : List (String × Val))
    (h : (items.map Prod.fst).Nodup) : pyDict items = items := by
  unfold pyDict
  suffices hgen : ∀ acc : Record, NodupKeys acc →
      (∀ x ∈ items.map Prod.fst, x ∉ pyKeys acc) →
      items.foldl (fun d e => pyInsert d e.1 e.2) acc = acc ++ items by
    simpa using hgen [] (by simp [NodupKeys, pyKeys]) (by simp [pyKeys])
  induction items with
  | nil => intro acc _ _; simp
  | cons e t ih =>
      intro acc hacc hdisj
      rw [List.foldl_cons]
      have hek : e.1 ∉ pyKeys acc := hdisj e.1 (by simp)
      have hins : pyInsert acc e.1 e.2 = acc ++ [e] := by
        unfold pyInsert
        rw [if_neg (by rw [Option.not_isSome_iff_eq_none, pyLookup_eq_none_iff]; exact hek)]
      rw [hins]
      have hnd_t : (t.map Prod.fst).Nodup := (List.nodup_cons.mp h).2
      have hacc' : NodupKeys (acc ++ [e]) := by
        unfold NodupKeys pyKeys at hacc ⊢
        rw [List.map_append, List.nodup_append]
        exact ⟨hacc, by simp, by intro x hx hx'; simp at hx'; subst hx'; exact hek hx⟩
      have hdisj' : ∀ x ∈ t.map Prod.fst, x ∉ pyKeys (acc ++ [e]) := by
        intro x hx
        unfold pyKeys
        rw [List.map_append, List.mem_append]
        rintro (hmem | hmem)
        · exact hdisj x (by simp [hx]) hmem
        · simp only [List.map_cons, List.map_nil, List.mem_cons, List.not_mem_nil, or_false] at hmem
          subst hmem
          exact (List.nodup_cons.mp h).1 hx
      rw [ih hnd_t (acc ++ [e]) hacc' hdisj']
      simp

theorem pyLookup_all_eq (l : List (String × Val)) (k : String) (v : Val)
    (h : ∀ e ∈ l, e.1 = k → e.2 = v) :
    pyLookup l k = none ∨ pyLookup l k = some v := by
  induction l with
  | nil => exact Or.inl rfl
  | cons e t ih =>
      rw [pyLookup_cons]
      by_cases he : e.1 = k
      · right
        rw [if_pos he, h e (by simp) he]
      · rw [if_neg he]
        exact ih (fun e' he' hk => h e' (by simp [he']) hk)

theorem pyLookup_of_mem_unique (l : List (String × Val)) (k : String) (v : Val)
    (hmem : (k, v) ∈ l) (h : ∀ e ∈ l, e.1 = k → e.2 = v) :
    pyLookup l k = some v := by
  rcases pyLookup_all_eq l k v h with hn | hs
  · rw [pyLookup_eq_none_iff] at hn
    exact absurd (by exact List.mem_map_of_mem Prod.fst hmem) hn
  · exact hs

theorem lookupLast_all_eq (l : List (String × Val)) (k : String) (v : Val)
    (h : ∀ e ∈ l, e.1 = k → e.2 = v) :
    lookupLast l k = none ∨ lookupLast l k = some v := by
  unfold lookupLast
  exact pyLookup_all_eq _ k v (fun e he hk => h e (List.mem_reverse.mp he) hk)

theorem lookupLast_of_mem_unique (l : List (String × Val)) (k : String) (v : Val)
    (hmem : (k, v) ∈ l) (h : ∀ e ∈ l, e.1 = k → e.2 = v) :
    lookupLast l k = some v := by
  unfold lookupLast
  exact pyLookup_of_mem_unique _ k v (List.mem_reverse.mpr hmem)
    (fun e he hk => h e (List.mem_reverse.mp he) hk)

theorem lookupLast_eq_none_iff (l : List (String × Val)) (k : String) :
    lookupLast l k = none ↔ k ∉ l.map Prod.fst := by
  unfold lookupLast
  rw [pyLookup_eq_none_iff]
  show k ∉ pyKeys l.reverse ↔ _
  unfold pyKeys
  rw [List.map_reverse, List.mem_reverse]

/-! ### Deduplication, Cartesian product, and list helpers -/

theorem mem_pyDedup (l : List Val) (x : Val) : x ∈ pyDedup l ↔ x ∈ l := by
  unfold pyDedup
  suffices h : ∀ acc : List Val,
      (x ∈ l.foldl (fun acc x => if x ∈ acc then acc else acc ++ [x]) acc ↔
        x ∈ acc ∨ x ∈ l) by
    simpa using h []
  induction l with
  | nil => intro acc; simp
  | cons y t ih =>
      intro acc
      rw [List.foldl_cons]
      by_cases hy : y ∈ acc
      · rw [if_pos hy, ih acc]
        rw [List.mem_cons]
        constructor
        · rintro (h | h)
          · exact Or.inl h
          · exact Or.inr (Or.inr h)
        · rintro (h | h | h)
          · exact Or.inl h
          · exact Or.inl (by rw [h]; exact hy)
          · exact Or.inr h
      · rw [if_neg hy, ih (acc ++ [y])]
        rw [List.mem_append, List.mem_cons]
        simp only [List.mem_cons, List.not_mem_nil, or_false]
        tauto

theorem pyDedup_nodup (l : List Val) : (pyDedup l).Nodup := by
  unfold pyDedup
  suffices h : ∀ acc : List Val, acc.Nodup →
      (l.foldl (fun acc x => if x ∈ acc then acc else acc ++ [x]) acc).Nodup by
    exact h [] List.nodup_nil
  induction l with
  | nil => intro acc hacc; exact hacc
  | cons y t ih =>
      intro acc hacc
      rw [List.foldl_cons]
      by_cases hy : y ∈ acc
      · rw [if_pos hy]; exact ih acc hacc
      · rw [if_neg hy]
        refine ih _ ?_
        rw [List.nodup_append]
        exact ⟨hacc, by simp, by intro x hx hx'; simp at hx'; subst hx'; exact hy hx⟩

theorem pyProduct_length {α : Type} (xss : List (List α)) :
    (pyProduct xss).length = (xss.map List.length).prod := by
  induction xss with
  | nil => rfl
  | cons xs t ih =>
      unfold pyProduct
      induction xs with
      | nil => simp
      | cons x xs' ihx =>
          rw [List.flatMap_cons, List.length_append, ihx]
          simp only [List.length_map, List.map_cons, List.prod_cons, ih]
          rw [List.length_cons]
          ring

theorem mem_pyProduct {α : Type} (xss : List (List α)) (l : List α) :
    l ∈ pyProduct xss ↔ List.Forall₂ (· ∈ ·) l xss := by
  induction xss generalizing l with
  | nil =>
      unfold pyProduct
      rw [List.forall₂_nil_right_iff]
      simp
  | cons xs t ih =>
      unfold pyProduct
      rw [List.mem_flatMap]
      constructor
      · rintro ⟨x, hx, hl⟩
        rcases List.mem_map.mp hl with ⟨l', hl', rfl⟩
        exact List.Forall₂.cons hx ((ih l').mp hl')
      · intro h
        rcases List.forall₂_cons_right_iff.mp h with ⟨a, l', ha, hrest, rfl⟩
        exact ⟨a, ha, List.mem_map.mpr ⟨l', (ih l').mpr hrest, rfl⟩⟩

theorem length_of_mem_pyProduct {α : Type} (xss : List (List α)) (l : List α)
    (h : l ∈ pyProduct xss) : l.length = xss.length :=
  ((mem_pyProduct xss l).mp h).length_eq

theorem pyProduct_nodup {α : Type} (xss : List (List α))
    (h : ∀ xs ∈ xss, xs.Nodup) : (pyProduct xss).Nodup := by
  induction xss with
  | nil => simp [pyProduct]
  | cons xs t ih =>
      unfold pyProduct
      rw [List.nodup_flatMap]
      refine ⟨?_, ?_⟩
      · intro x _
        exact List.Nodup.map (fun a b hab => (List.cons.inj hab).2)
          (ih (fun ys hys => h ys (List.mem_cons_of_mem _ hys)))
      · have hxs : xs.Nodup := h xs (by simp)
        refine List.Pairwise.imp ?_ hxs
        intro a b hab
        intro l hla hlb
        rcases List.mem_map.mp hla with ⟨l1, _, rfl⟩
        rcases List.mem_map.mp hlb with ⟨l2, _, h2⟩
        exact hab (List.cons.inj h2.symm).1

theorem mapM_ok {α β : Type} (l : List α) (f : α → Except Unit β) (g : α → β)
    (h : ∀ x ∈ l, f x = Except.ok (g x)) : l.mapM f = Except.ok (l.map g) := by
  induction l with
  | nil => rfl
  | cons x t ih =>
      rw [List.mapM_cons, h x (by simp), ih (fun y hy => h y (by simp [hy]))]
      rfl

theorem filterMap_isSome_eq_map {α β : Type} (l : List α) (f : α → Option β) (b : β)
    (h : ∀ x ∈ l, (f x).isSome) :
    l.filterMap f = l.map (fun x => (f x).getD b) := by
  induction l with
  | nil => rfl
  | cons x t ih =>
      rw [List.filterMap_cons, List.map_cons]
      rcases hx : f x with _ | v
      · have := h x (by simp)
        rw [hx] at this
        simp at this
      · rw [ih (fun y hy => h y (by simp [hy]))]
        rfl

theorem flatMap_singleton_eq_map {α β : Type} (l : List α) (f : α → List β)
    (g : α → β) (h : ∀ x ∈ l, f x = [g x]) : l.flatMap f = l.map g := by
  induction l with
  | nil => rfl
  | cons x t ih =>
      rw [List.flatMap_cons, h x (by simp), ih (fun y hy => h y (by simp [hy]))]
      rfl

theorem filterMap_ite_singleton {α β : Type} [DecidableEq α] (l : List α) (a : α)
    (f : α → β) (hnd : l.Nodup) (hmem : a ∈ l) :
    l.filterMap (fun x => if x = a then some (f x) else none) = [f a] := by
  induction l with
  | nil => simp at hmem
  | cons x t ih =>
      rw [List.filterMap_cons]
      by_cases hx : x = a
      · subst hx
        rw [if_pos rfl]
        have hnx : x ∉ t := (List.nodup_cons.mp hnd).1
        have hnil : t.filterMap (fun y => if y = x then some (f y) else none) = [] := by
          rw [List.filterMap_eq_nil_iff]
          intro y hy
          have hyx : ¬(y = x) := fun he => hnx (he ▸ hy)
          rw [if_neg hyx]
        rw [hnil]
      · rw [if_neg hx]
        rcases List.mem_cons.mp hmem with h | h
        · exact absurd h.symm hx
        · exact ih (List.nodup_cons.mp hnd).2 h

theorem zip_lookup_tail (g' : List String) (vs' : List Val) (k : String) (v : Val)
    (hk : k ∉ g') :
    g'.filterMap (fun k' => pyLookup ((k, v) :: g'.zip vs') k') =
      g'.filterMap (fun k' => pyLookup (g'.zip vs') k') := by
  apply List.filterMap_congr
  intro k' hk'
  rw [pyLookup_cons, if_neg ?_]
  intro he
  have hkk : k = k' := he
  exact hk (hkk.symm ▸ hk')

theorem zip_filterMap_lookup (g : List String) (vs : List Val)
    (hnd : g.Nodup) (hlen : vs.length = g.length) :
    g.filterMap (fun k => pyLookup (g.zip vs) k) = vs := by
  induction g generalizing vs with
  | nil =>
      cases vs with
      | nil => rfl
      | cons v vs' => simp at hlen
  | cons k g' ih =>
      cases vs with
      | nil => simp at hlen
      | cons v vs' =>
          rw [List.zip_cons_cons, List.filterMap_cons]
          rw [pyLookup_cons, if_pos rfl]
          have hk : k ∉ g' := (List.nodup_cons.mp hnd).1
          rw [zip_lookup_tail g' vs' k v hk]
          rw [ih vs' (List.nodup_cons.mp hnd).2 (by simpa using hlen)]

/-! ### The join match predicate -/

theorem matchB_true_iff (di dj : Record) (m : List (String × String)) :
    matchB di dj m = true ↔
      (m.length = ((m.map Prod.fst).filterMap (pyLookup di)).length ∧
       ((m.map Prod.fst).filterMap (pyLookup di)).length =
         ((m.map Prod.snd).filterMap (pyLookup dj)).length ∧
       (m.map Prod.fst).filterMap (pyLookup di) =
         (m.map Prod.snd).filterMap (pyLookup dj)) := by
  unfold matchB
  rw [Bool.and_eq_true, Bool.and_eq_true]
  rw [decide_eq_true_iff, decide_eq_true_iff, decide_eq_true_iff]
  tauto

theorem matchB_iff (di dj : Record) (m : List (String × String)) :
    matchB di dj m = true ↔
      ∀ p ∈ m, ∃ v, pyLookup di p.1 = some v ∧ pyLookup dj p.2 = some v := by
  rw [matchB_true_iff]
  induction m with
  | nil => simp
  | cons p t ih =>
      have hle1 : ((t.map Prod.fst).filterMap (pyLookup di)).length ≤ t.length := by
        calc ((t.map Prod.fst).filterMap (pyLookup di)).length
            ≤ (t.map Prod.fst).length := List.length_filterMap_le _ _
          _ = t.length := List.length_map _ _
      have hle2 : ((t.map Prod.snd).filterMap (pyLookup dj)).length ≤ t.length := by
        calc ((t.map Prod.snd).filterMap (pyLookup dj)).length
            ≤ (t.map Prod.snd).length := List.length_filterMap_le _ _
          _ = t.length := List.length_map _ _
      rcases h1 : pyLookup di p.1 with _ | v
      · rw [List.map_cons, List.filterMap_cons_none h1]
        constructor
        · rintro ⟨hlen, -, -⟩
          exfalso
          rw [List.length_cons] at hlen
          omega
        · intro h
          rcases h p (by simp) with ⟨v, hv, -⟩
          rw [h1] at hv
          exact Option.noConfusion hv
      · rcases h2 : pyLookup dj p.2 with _ | w
        · rw [List.map_cons, List.map_cons, List.filterMap_cons_some h1,
            List.filterMap_cons_none h2]
          constructor
          · rintro ⟨hlen1, hlen2, -⟩
            exfalso
            simp only [List.length_cons] at hlen1 hlen2
            omega
          · intro h
            rcases h p (by simp) with ⟨v, -, hw⟩
            rw [h2] at hw
            exact Option.noConfusion hw
        · rw [List.map_cons, List.map_cons, List.filterMap_cons_some h1,
            List.filterMap_cons_some h2]
          rw [List.length_cons, List.length_cons, List.length_cons]
          constructor
          · rintro ⟨hlen1, hlen2, heq⟩
            have hvw := List.cons.inj heq
            intro p' hp'
            rcases List.mem_cons.mp hp' with hp' | hp'
            · subst hp'
              exact ⟨v, h1, by rw [h2, hvw.1]⟩
            · exact (ih.mp ⟨by omega, by omega, hvw.2⟩) p' hp'
          · intro h
            rcases h p (by simp) with ⟨u, hu1, hu2⟩
            rw [h1] at hu1
            rw [h2] at hu2
            cases hu1
            cases hu2
            have ht := ih.mpr (fun p' hp' => h p' (by simp [hp']))
            exact ⟨by omega, by omega, by rw [ht.2.2]⟩

/-! ### Join decomposition -/

theorem join_split {α : Type} (L : List α) (f : α → List α) :
    (L.flatMap (fun d => if (f d).isEmpty then [d] else f d)).Perm
      ((L.flatMap f) ++ L.filter (fun d => (f d).isEmpty)) := by
  induction L with
  | nil => simp
  | cons d t ih =>
      rw [List.flatMap_cons, List.flatMap_cons, List.filter_cons]
      by_cases h : (f d).isEmpty
      · have hfd : f d = [] := List.isEmpty_iff.mp h
        rw [if_pos h, if_pos h, hfd, List.nil_append, List.singleton_append]
        exact List.Perm.trans (ih.cons d) List.perm_middle.symm
      · rw [if_neg h, if_neg (by simpa using h), List.append_assoc]
        exact List.Perm.append_left (f d) ih

theorem mem_innerMatches (di : Record) (other : List Record)
    (m : List (String × String)) (s1 s2 : String) (r : Record)
    (h : r ∈ innerMatches di other m s1 s2) :
    ∃ dj ∈ other, matchB di dj m = true ∧ r = mergeDicts di dj m s1 s2 := by
  unfold innerMatches at h
  rcases List.mem_filterMap.mp h with ⟨dj, hdj, heq⟩
  by_cases hm : matchB di dj m
  · rw [if_pos hm] at heq
    exact ⟨dj, hdj, hm, (Option.some.inj heq).symm⟩
  · rw [if_neg hm] at heq
    exact Option.noConfusion heq

/-! ### Subsets and grouped aggregation -/

theorem keepByKeyVal_ok (b : List Record) (k : String) (v : Val)
    (h : ∀ d ∈ b, (pyLookup d k).isSome) :
    keepByKeyVal b k v =
      Except.ok (b.filter (fun d => decide (pyLookup d k = some v))) := by
  induction b with
  | nil => rfl
  | cons d t ih =>
      have hd := h d (by simp)
      rcases hw : pyLookup d k with _ | w
      · rw [hw] at hd; simp at hd
      · show (match pyLookup d k with
          | none => Except.error ()
          | some w => (keepByKeyVal t k v).map
              (fun r => if w = v then d :: r else r)) = _
        rw [hw, ih (fun d' hd' => h d' (by simp [hd']))]
        rw [List.filter_cons]
        have hdec : decide (pyLookup d k = some v) = decide (w = v) := by
          rw [hw]
          by_cases hwv : w = v
          · rw [hwv]; simp
          · simp [hwv]
        rw [hdec]
        by_cases hwv : w = v
        · subst hwv
          simp [Except.map]
        · simp [hwv, Except.map]

theorem keep_fold_ok (combo : Record) (b : List Record)
    (h : ∀ d ∈ b, ∀ e ∈ combo, (pyLookup d e.1).isSome) :
    List.foldlM (fun b (e : String × Val) => keepByKeyVal b e.1 e.2) b combo =
      Except.ok (b.filter (fun d => combo.all
        (fun e => decide (pyLookup d e.1 = some e.2)))) := by
  induction combo generalizing b with
  | nil =>
      rw [List.foldlM_nil]
      have : b.filter (fun d => List.all [] (fun (e : String × Val) =>
          decide (pyLookup d e.1 = some e.2))) = b := by
        rw [show (fun d => List.all [] (fun (e : String × Val) =>
          decide (pyLookup d e.1 = some e.2))) = (fun _ => true) from rfl]
        exact List.filter_true b
      rw [this]
      rfl
  | cons e t ih =>
      rw [List.foldlM_cons]
      rw [keepByKeyVal_ok b e.1 e.2 (fun d hd => h d hd e (by simp))]
      show List.foldlM (fun b (e : String × Val) => keepByKeyVal b e.1 e.2)
          (b.filter (fun d => decide (pyLookup d e.1 = some e.2))) t = _
      rw [ih _ (fun d hd e' he' => h d (List.mem_filter.mp hd).1 e' (by simp [he']))]
      rw [List.filter_filter]
      congr 1
      apply List.filter_congr
      intro d _
      rw [List.all_cons]
      exact Bool.and_comm _ _

theorem subsetForCombo_ok (c : Clumper) (combo : Record)
    (h : ∀ d ∈ c.blob, ∀ e ∈ combo, (pyLookup d e.1).isSome) :
    subsetForCombo c combo =
      Except.ok ⟨c.blob.filter (fun d => combo.all
        (fun e => decide (pyLookup d e.1 = some e.2))), c.groups⟩ := by
  unfold subsetForCombo
  rw [keep_fold_ok combo c.blob h]
  rfl

theorem keys_of_mem_groupCombos (c : Clumper) (combo : Record)
    (hmem : combo ∈ groupCombos c) : ∀ e ∈ combo, e.1 ∈ c.groups := by
  unfold groupCombos at hmem
  rcases List.mem_map.mp hmem with ⟨vs, hvs, rfl⟩
  intro e he
  have hk : e.1 ∈ pyKeys (pyDict (c.groups.zip vs)) :=
    List.mem_map_of_mem Prod.fst he
  rw [pyKeys_pyDict_mem] at hk
  rcases List.mem_map.mp hk with ⟨e', he', heq⟩
  have := (List.of_mem_zip he').1
  rw [← heq]
  rcases e' with ⟨k', v'⟩
  exact this

theorem subsetsE_ok (c : Clumper)
    (h : ∀ d ∈ c.blob, ∀ k ∈ c.groups, (pyLookup d k).isSome) :
    subsetsE c = Except.ok ((groupCombos c).map (fun combo =>
      ⟨c.blob.filter (fun d => combo.all
        (fun e => decide (pyLookup d e.1 = some e.2))), c.groups⟩)) := by
  unfold subsetsE
  apply mapM_ok
  intro combo hcombo
  exact subsetForCombo_ok c combo
    (fun d hd e he => h d hd e.1 (keys_of_mem_groupCombos c combo hcombo e he))

theorem groupCombos_zip (c : Clumper) (hnd : c.groups.Nodup) :
    groupCombos c = (pyProduct (c.groups.map (uniqueVals c))).map
      (fun vs => c.groups.zip vs) := by
  unfold groupCombos
  apply List.map_congr_left
  intro vs hvs
  have hlen : vs.length = c.groups.length := by
    rw [length_of_mem_pyProduct _ vs hvs, List.length_map]
  apply pyDict_eq_self
  rw [List.map_fst_zip _ _ (by omega)]
  exact hnd

/-! ### String and zip helpers -/

theorem str_append_empty (s : String) : s ++ "" = s := by
  apply String.ext
  rw [String.data_append]
  simp [String.data]

theorem str_append_right_cancel (a b s : String) (h : a ++ s = b ++ s) : a = b := by
  have hd := congrArg String.data h
  rw [String.data_append, String.data_append] at hd
  exact String.ext (List.append_cancel_right hd)

theorem zip_self_map {α β : Type} (l : List α) (f : α → β) :
    l.zip (l.map f) = l.map (fun a => (a, f a)) := by
  have h := List.zip_map' (fun a : α => a) f l
  rw [List.map_id'] at h
  exact h

theorem forall₂_map_map {α β γ : Type} (l : List α) (f : α → β) (h : α → γ)
    (R : β → γ → Prop) (hall : ∀ a ∈ l, R (f a) (h a)) :
    List.Forall₂ R (l.map f) (l.map h) := by
  induction l with
  | nil => simp
  | cons a t ih =>
      rw [List.map_cons, List.map_cons]
      exact List.Forall₂.cons (hall a (by simp))
        (ih (fun a' ha' => hall a' (by simp [ha'])))

theorem nodup_map_fst_inj {α β : Type} (l : List (α × β)) (hnd : (l.map Prod.fst).Nodup)
    (a b : α × β) (ha : a ∈ l) (hb : b ∈ l) (heq : a.1 = b.1) : a = b := by
  induction l with
  | nil => simp at ha
  | cons e t ih =>
      rw [List.map_cons, List.nodup_cons] at hnd
      rcases List.mem_cons.mp ha with ha' | ha' <;>
        rcases List.mem_cons.mp hb with hb' | hb'
      · rw [ha', hb']
      · exfalso
        apply hnd.1
        rw [← ha', heq]
        exact List.mem_map_of_mem Prod.fst hb'
      · exfalso
        apply hnd.1
        rw [← hb', ← heq]
        exact List.mem_map_of_mem Prod.fst ha'
      · exact ih hnd.2 ha' hb'

/-! ### The grouped aggregate engine, structurally -/

theorem aggE_grouped (c : Clumper) (specs : List AggSpec)
    (hg : c.groups ≠ []) (hnd : c.groups.Nodup)
    (hpres : ∀ d ∈ c.blob, ∀ k ∈ c.groups, (pyLookup d k).isSome) :
    aggE c specs = Except.ok
      ⟨(pyProduct (c.groups.map (uniqueVals c))).map (summaryFor c specs), c.groups⟩ := by
  unfold aggE
  rw [if_neg (by simpa [List.isEmpty_iff] using hg)]
  rw [subsetsE_ok c hpres]
  simp only [Bind.bind, Except.bind]
  rw [zip_self_map, List.map_map, groupCombos_zip c hnd, List.map_map]
  rfl

theorem summaryFor_lookup_groupKey (c : Clumper) (specs : List AggSpec)
    (vs : List Val) (k : String) (hnd : c.groups.Nodup)
    (hlen : vs.length = c.groups.length) (hk : k ∈ c.groups) :
    pyLookup (summaryFor c specs vs) k = pyLookup (c.groups.zip vs) k := by
  unfold summaryFor
  rw [pyDict_lookup, lookupLast_append]
  have hzipnd : NodupKeys (c.groups.zip vs) := by
    unfold NodupKeys pyKeys
    rw [List.map_fst_zip _ _ (by omega)]
    exact hnd
  rw [lookupLast_eq_pyLookup _ _ hzipnd]
  have hsome : (pyLookup (c.groups.zip vs) k).isSome := by
    rw [pyLookup_isSome_iff]
    unfold pyKeys
    rw [List.map_fst_zip _ _ (by omega)]
    exact hk
  rcases h : pyLookup (c.groups.zip vs) k with _ | v
  · rw [h] at hsome; simp at hsome
  · rfl

theorem summaryFor_filterMap (c : Clumper) (specs : List AggSpec) (vs : List Val)
    (hnd : c.groups.Nodup) (hlen : vs.length = c.groups.length) :
    c.groups.filterMap (fun k => pyLookup (summaryFor c specs vs) k) = vs := by
  have step : c.groups.filterMap (fun k => pyLookup (summaryFor c specs vs) k) =
      c.groups.filterMap (fun k => pyLookup (c.groups.zip vs) k) :=
    List.filterMap_congr
      (fun k hk => summaryFor_lookup_groupKey c specs vs k hnd hlen hk)
  rw [step]
  exact zip_filterMap_lookup c.groups vs hnd hlen

theorem matchB_summary (c : Clumper) (specs : List AggSpec) (vs : List Val)
    (d : Record) (hnd : c.groups.Nodup) (hlen : vs.length = c.groups.length)
    (hpresd : ∀ k ∈ c.groups, (pyLookup d k).isSome) :
    (matchB d (summaryFor c specs vs) (c.groups.map (fun k => (k, k))) = true) ↔
      vs = dVals d c.groups := by
  rw [matchB_true_iff]
  have hfst : (c.groups.map (fun k => (k, k))).map Prod.fst = c.groups := by
    rw [List.map_map]
    rw [show (Prod.fst ∘ fun k : String => (k, k)) = fun k => k from rfl]
    rw [List.map_id']
  have hsnd : (c.groups.map (fun k => (k, k))).map Prod.snd = c.groups := by
    rw [List.map_map]
    rw [show (Prod.snd ∘ fun k : String => (k, k)) = fun k => k from rfl]
    rw [List.map_id']
  rw [hfst, hsnd]
  rw [filterMap_isSome_eq_map c.groups (pyLookup d) (Val.int 0) hpresd]
  rw [summaryFor_filterMap c specs vs hnd hlen]
  show (c.groups.map (fun k => (k, k))).length = (dVals d c.groups).length ∧
      (dVals d c.groups).length = vs.length ∧ dVals d c.groups = vs ↔ _
  constructor
  · rintro ⟨-, -, heq⟩
    exact heq.symm
  · intro h
    refine ⟨?_, ?_, h.symm⟩
    · unfold dVals
      rw [List.length_map, List.length_map]
    · unfold dVals
      rw [List.length_map, hlen]

theorem innerMatches_summary (c : Clumper) (specs : List AggSpec) (d : Record)
    (hnd : c.groups.Nodup) (hd : d ∈ c.blob)
    (hpresd : ∀ k ∈ c.groups, (pyLookup d k).isSome) :
    innerMatches d ((pyProduct (c.groups.map (uniqueVals c))).map (summaryFor c specs))
        (c.groups.map (fun k => (k, k))) "" "_joined" =
      [mergeDicts d (summaryFor c specs (dVals d c.groups))
        (c.groups.map (fun k => (k, k))) "" "_joined"] := by
  unfold innerMatches
  rw [List.filterMap_map]
  have hcong : ∀ vs ∈ pyProduct (c.groups.map (uniqueVals c)),
      ((fun dj => if matchB d dj (c.groups.map (fun k => (k, k))) then
          some (mergeDicts d dj (c.groups.map (fun k => (k, k))) "" "_joined")
        else none) ∘ summaryFor c specs) vs =
      (fun vs => if vs = dVals d c.groups then
          some (mergeDicts d (summaryFor c specs vs)
            (c.groups.map (fun k => (k, k))) "" "_joined")
        else none) vs := by
    intro vs hvs
    have hlen : vs.length = c.groups.length := by
      rw [length_of_mem_pyProduct _ vs hvs, List.length_map]
    show (if matchB d (summaryFor c specs vs) (c.groups.map (fun k => (k, k))) then
        some (mergeDicts d (summaryFor c specs vs)
          (c.groups.map (fun k => (k, k))) "" "_joined")
      else none) =
      (if vs = dVals d c.groups then
        some (mergeDicts d (summaryFor c specs vs)
          (c.groups.map (fun k => (k, k))) "" "_joined")
      else none)
    by_cases hm : vs = dVals d c.groups
    · rw [if_pos ((matchB_summary c specs vs d hnd hlen hpresd).mpr hm), if_pos hm]
    · rw [if_neg (fun hb => hm ((matchB_summary c specs vs d hnd hlen hpresd).mp hb)),
        if_neg hm]
  rw [List.filterMap_congr hcong]
  apply filterMap_ite_singleton
  · apply pyProduct_nodup
    intro xs hxs
    rcases List.mem_map.mp hxs with ⟨k, -, rfl⟩
    exact pyDedup_nodup _
  · rw [mem_pyProduct]
    unfold dVals
    apply forall₂_map_map
    intro k hk
    have hs := hpresd k hk
    rcases hv : pyLookup d k with _ | v
    · rw [hv] at hs; simp at hs
    · show v ∈ uniqueVals c k
      unfold uniqueVals
      rw [mem_pyDedup]
      exact List.mem_filterMap.mpr ⟨d, hd, hv⟩

theorem transformE_structure (c : Clumper) (specs : List AggSpec)
    (hg : c.groups ≠ []) (hnd : c.groups.Nodup)
    (hpres : ∀ d ∈ c.blob, ∀ k ∈ c.groups, (pyLookup d k).isSome) :
    transformE c specs = Except.ok
      ⟨c.blob.map (fun d => mergeDicts d (summaryFor c specs (dVals d c.groups))
        (c.groups.map (fun k => (k, k))) "" "_joined"), c.groups⟩ := by
  unfold transformE
  rw [aggE_grouped c specs hg hnd hpres]
  simp only [Bind.bind, Except.bind]
  unfold left_join
  have hblob : c.blob.flatMap (fun di =>
      if (innerMatches di ((pyProduct (c.groups.map (uniqueVals c))).map (summaryFor c specs))
            (c.groups.map (fun k => (k, k))) "" "_joined").isEmpty then [di]
      else innerMatches di ((pyProduct (c.groups.map (uniqueVals c))).map (summaryFor c specs))
            (c.groups.map (fun k => (k, k))) "" "_joined") =
      c.blob.map (fun d => mergeDicts d (summaryFor c specs (dVals d c.groups))
        (c.groups.map (fun k => (k, k))) "" "_joined") := by
    apply flatMap_singleton_eq_map
    intro d hd
    rw [innerMatches_summary c specs d hnd hd (fun k hk => hpres d hd k hk)]
    rfl
  rw [hblob]

/-! ### Merge lookup analysis -/

theorem mergeDicts_lookup (d1 d2 : Record) (m : List (String × String))
    (s1 s2 k : String) :
    pyLookup (mergeDicts d1 d2 m s1 s2) k =
      (lookupLast (d2.map (fun e => (if toSuffix d1 d2 m e.1 then e.1 ++ s2 else e.1, e.2))) k).or
        (lookupLast (d1.map (fun e => (if toSuffix d1 d2 m e.1 then e.1 ++ s1 else e.1, e.2))) k) := by
  unfold mergeDicts
  rw [pyDict_lookup, lookupLast_append]
  rw [lookupLast_eq_pyLookup _ _ (pyDict_nodupKeys _), pyDict_lookup]
  rw [lookupLast_eq_pyLookup _ _ (pyDict_nodupKeys _), pyDict_lookup]

theorem rename_empty_suffix (d : Record) (P : String → Bool) :
    d.map (fun e => (if P e.1 then e.1 ++ "" else e.1, e.2)) = d := by
  have h : d.map (fun e => (if P e.1 then e.1 ++ "" else e.1, e.2)) =
      d.map (fun e => e) := by
    apply List.map_congr_left
    intro e _
    by_cases hp : P e.1
    · rw [if_pos hp, str_append_empty]
    · rw [if_neg hp]
  rw [h, List.map_id']

theorem toSuffix_true_iff (d1 d2 : Record) (m : List (String × String)) (k : String) :
    toSuffix d1 d2 m k = true ↔
      (k ∈ pyKeys d1 ∧ k ∈ pyKeys d2 ∧
        k ∉ m.map Prod.fst ++ m.map Prod.snd) := by
  unfold toSuffix
  simp only [Bool.and_eq_true, Bool.not_eq_true', decide_eq_false_iff_not, decide_eq_true_eq]
  tauto

theorem idMap_fst (g : List String) :
    (g.map (fun k => (k, k))).map Prod.fst = g := by
  rw [List.map_map]
  rw [show (Prod.fst ∘ fun k : String => (k, k)) = fun k => k from rfl]
  rw [List.map_id']

theorem idMap_snd (g : List String) :
    (g.map (fun k => (k, k))).map Prod.snd = g := by
  rw [List.map_map]
  rw [show (Prod.snd ∘ fun k : String => (k, k)) = fun k => k from rfl]
  rw [List.map_id']

theorem mem_idMap_keys_iff (g : List String) (k : String) :
    k ∈ (g.map (fun k => (k, k))).map Prod.fst ++
        (g.map (fun k => (k, k))).map Prod.snd ↔ k ∈ g := by
  rw [List.mem_append, idMap_fst, idMap_snd, or_self]

theorem toSuffix_of_idMapKey (d1 d2 : Record) (g : List String) (k : String)
    (hk : k ∈ g) : toSuffix d1 d2 (g.map (fun k => (k, k))) k = false := by
  unfold toSuffix
  have hmem : k ∈ (g.map (fun k => (k, k))).map Prod.fst ++
      (g.map (fun k => (k, k))).map Prod.snd := (mem_idMap_keys_iff g k).mpr hk
  rw [decide_eq_true hmem]
  simp

theorem dVals_length (d : Record) (g : List String) :
    (dVals d g).length = g.length := by
  unfold dVals
  rw [List.length_map]

theorem aggEntries_keys (specs : List AggSpec) (c' : Clumper) :
    (aggEntries specs c').map Prod.fst = specs.map (fun s => s.1) := by
  unfold aggEntries
  rw [List.map_map]
  rfl

theorem summaryFor_eq_append (c : Clumper) (specs : List AggSpec) (vs : List Val)
    (hnd : c.groups.Nodup) (hlen : vs.length = c.groups.length)
    (hsn : (specs.map (fun s => s.1)).Nodup)
    (hdisj : ∀ s ∈ specs, s.1 ∉ c.groups) :
    summaryFor c specs vs = aggEntries specs (subForVals c vs) ++ c.groups.zip vs := by
  unfold summaryFor
  apply pyDict_eq_self
  rw [List.map_append, List.nodup_append, aggEntries_keys,
    List.map_fst_zip _ _ (by omega)]
  refine ⟨hsn, hnd, ?_⟩
  intro x hx hx'
  rcases List.mem_map.mp hx with ⟨s, hs, rfl⟩
  exact hdisj s hs hx'

theorem specName_mem_summary_keys (c : Clumper) (specs : List AggSpec)
    (vs : List Val) (s : AggSpec) (hs : s ∈ specs) :
    s.1 ∈ pyKeys (summaryFor c specs vs) := by
  unfold summaryFor
  rw [pyKeys_pyDict_mem, List.map_append, List.mem_append]
  left
  rw [aggEntries_keys]
  exact List.mem_map_of_mem _ hs

theorem toSuffix_spec_name (c : Clumper) (specs : List AggSpec) (vs : List Val)
    (d : Record) (s : AggSpec) (hdisj : ∀ t ∈ specs, t.1 ∉ c.groups)
    (hs : s ∈ specs) :
    toSuffix d (summaryFor c specs vs) (c.groups.map (fun k => (k, k))) s.1 =
      decide (s.1 ∈ pyKeys d) := by
  by_cases hkd : s.1 ∈ pyKeys d
  · rw [decide_eq_true hkd]
    exact (toSuffix_true_iff _ _ _ _).mpr
      ⟨hkd, specName_mem_summary_keys c specs vs s hs,
        fun hmem => hdisj s hs ((mem_idMap_keys_iff _ _).mp hmem)⟩
  · rw [decide_eq_false hkd]
    rcases hb : toSuffix d (summaryFor c specs vs)
        (c.groups.map (fun k => (k, k))) s.1 with _ | _
    · rfl
    · exact absurd ((toSuffix_true_iff _ _ _ _).mp hb).1 hkd

theorem renamed_summary_cases (c : Clumper) (specs : List AggSpec) (d : Record)
    (hnd : c.groups.Nodup)
    (hsn : (specs.map (fun s => s.1)).Nodup)
    (hdisj : ∀ s ∈ specs, s.1 ∉ c.groups)
    (e : String × Val)
    (he : e ∈ (summaryFor c specs (dVals d c.groups)).map
        (fun e => (if toSuffix d (summaryFor c specs (dVals d c.groups))
            (c.groups.map (fun k => (k, k))) e.1 then e.1 ++ "_joined" else e.1, e.2))) :
    (∃ s ∈ specs,
       e = (if s.1 ∈ pyKeys d then s.1 ++ "_joined" else s.1,
            summarise_col s.2.2 s.2.1 (subForVals c (dVals d c.groups)))) ∨
    (∃ k₀ ∈ c.groups, e = (k₀, (pyLookup d k₀).getD (Val.int 0))) := by
  rcases List.mem_map.mp he with ⟨e₀, he₀, rfl⟩
  rw [summaryFor_eq_append c specs _ hnd (dVals_length d c.groups) hsn hdisj] at he₀
  rcases List.mem_append.mp he₀ with hA | hZ
  · left
    unfold aggEntries at hA
    rcases List.mem_map.mp hA with ⟨s, hs, rfl⟩
    refine ⟨s, hs, ?_⟩
    rw [toSuffix_spec_name c specs _ d s hdisj hs]
    by_cases hkd : s.1 ∈ pyKeys d
    · simp [hkd]
    · simp [hkd]
  · right
    rw [show c.groups.zip (dVals d c.groups) =
        c.groups.map (fun k => (k, (pyLookup d k).getD (Val.int 0))) from by
      unfold dVals
      exact zip_self_map _ _] at hZ
    rcases List.mem_map.mp hZ with ⟨k₀, hk₀, rfl⟩
    refine ⟨k₀, hk₀, ?_⟩
    rw [toSuffix_of_idMapKey d _ c.groups k₀ hk₀]
    rfl

theorem transform_merge_preserves (c : Clumper) (specs : List AggSpec) (d : Record)
    (hnd : c.groups.Nodup) (hrec : NodupKeys d)
    (hsn : (specs.map (fun s => s.1)).Nodup)
    (hdisj : ∀ s ∈ specs, s.1 ∉ c.groups)
    (hsuf1 : ∀ s ∈ specs, (s.1 ++ "_joined") ∉ pyKeys d)
    (k : String) (v : Val) (hkv : pyLookup d k = some v) :
    pyLookup (mergeDicts d (summaryFor c specs (dVals d c.groups))
      (c.groups.map (fun k => (k, k))) "" "_joined") k = some v := by
  rw [mergeDicts_lookup, rename_empty_suffix, lookupLast_eq_pyLookup d k hrec, hkv]
  have hprop : ∀ e ∈ (summaryFor c specs (dVals d c.groups)).map
      (fun e => (if toSuffix d (summaryFor c specs (dVals d c.groups))
          (c.groups.map (fun k => (k, k))) e.1 then e.1 ++ "_joined" else e.1, e.2)),
      e.1 = k → e.2 = v := by
    intro e he heq
    rcases renamed_summary_cases c specs d hnd hsn hdisj e he with
      ⟨s, hs, rfl⟩ | ⟨k₀, hk₀, rfl⟩
    · by_cases hkd : s.1 ∈ pyKeys d
      · rw [if_pos hkd] at heq
        exfalso
        apply hsuf1 s hs
        simp only at heq
        rw [heq]
        exact (pyLookup_isSome_iff d k).mp (by rw [hkv]; rfl)
      · rw [if_neg hkd] at heq
        exfalso
        apply hkd
        simp only at heq
        rw [heq]
        exact (pyLookup_isSome_iff d k).mp (by rw [hkv]; rfl)
    · simp only at heq
      show (pyLookup d k₀).getD (Val.int 0) = v
      rw [heq, hkv]
      rfl
  rcases lookupLast_all_eq _ k v hprop with h | h
  · rw [h]
    rfl
  · rw [h]
    rfl

theorem transform_merge_spec_value (c : Clumper) (specs : List AggSpec) (d : Record)
    (hnd : c.groups.Nodup)
    (hpresd : ∀ k ∈ c.groups, (pyLookup d k).isSome)
    (hsn : (specs.map (fun s => s.1)).Nodup)
    (hdisj : ∀ s ∈ specs, s.1 ∉ c.groups)
    (hsuf1 : ∀ s ∈ specs, (s.1 ++ "_joined") ∉ pyKeys d)
    (hsuf2 : ∀ s ∈ specs, ∀ t ∈ specs, s.1 ++ "_joined" ≠ t.1)
    (s : AggSpec) (hs : s ∈ specs) :
    pyLookup (mergeDicts d (summaryFor c specs (dVals d c.groups))
        (c.groups.map (fun k => (k, k))) "" "_joined")
      (if s.1 ∈ pyKeys d then s.1 ++ "_joined" else s.1) =
      some (summarise_col s.2.2 s.2.1 (subForVals c (dVals d c.groups))) := by
  rw [mergeDicts_lookup, rename_empty_suffix]
  have hmain : lookupLast ((summaryFor c specs (dVals d c.groups)).map
      (fun e => (if toSuffix d (summaryFor c specs (dVals d c.groups))
          (c.groups.map (fun k => (k, k))) e.1 then e.1 ++ "_joined" else e.1, e.2)))
      (if s.1 ∈ pyKeys d then s.1 ++ "_joined" else s.1) =
      some (summarise_col s.2.2 s.2.1 (subForVals c (dVals d c.groups))) := by
    apply lookupLast_of_mem_unique
    · apply List.mem_map.mpr
      refine ⟨(s.1, summarise_col s.2.2 s.2.1 (subForVals c (dVals d c.groups))), ?_, ?_⟩
      · rw [summaryFor_eq_append c specs _ hnd (dVals_length d c.groups) hsn hdisj]
        apply List.mem_append_left
        unfold aggEntries
        exact List.mem_map_of_mem _ hs
      · rw [toSuffix_spec_name c specs _ d s hdisj hs]
        by_cases hkd : s.1 ∈ pyKeys d
        · simp [hkd]
        · simp [hkd]
    · intro e he heq
      rcases renamed_summary_cases c specs d hnd hsn hdisj e he with
        ⟨t, ht, rfl⟩ | ⟨k₀, hk₀, rfl⟩
      · simp only at heq ⊢
        by_cases hkd : s.1 ∈ pyKeys d
        · rw [if_pos hkd] at heq
          by_cases htd : t.1 ∈ pyKeys d
          · rw [if_pos htd] at heq
            have hts : t.1 = s.1 := str_append_right_cancel _ _ _ heq
            have hmem_t : (t.1, summarise_col t.2.2 t.2.1 (subForVals c (dVals d c.groups))) ∈
                aggEntries specs (subForVals c (dVals d c.groups)) := by
              unfold aggEntries
              exact List.mem_map_of_mem _ ht
            have hmem_s : (s.1, summarise_col s.2.2 s.2.1 (subForVals c (dVals d c.groups))) ∈
                aggEntries specs (subForVals c (dVals d c.groups)) := by
              unfold aggEntries
              exact List.mem_map_of_mem _ hs
            have heq2 := nodup_map_fst_inj _ (by rw [aggEntries_keys]; exact hsn)
              _ _ hmem_t hmem_s hts
            exact congrArg Prod.snd heq2
          · rw [if_neg htd] at heq
            exact absurd heq.symm (hsuf2 s hs t ht)
        · rw [if_neg hkd] at heq
          by_cases htd : t.1 ∈ pyKeys d
          · rw [if_pos htd] at heq
            exact absurd heq (hsuf2 t ht s hs)
          · rw [if_neg htd] at heq
            have hmem_t : (t.1, summarise_col t.2.2 t.2.1 (subForVals c (dVals d c.groups))) ∈
                aggEntries specs (subForVals c (dVals d c.groups)) := by
              unfold aggEntries
              exact List.mem_map_of_mem _ ht
            have hmem_s : (s.1, summarise_col s.2.2 s.2.1 (subForVals c (dVals d c.groups))) ∈
                aggEntries specs (subForVals c (dVals d c.groups)) := by
              unfold aggEntries
              exact List.mem_map_of_mem _ hs
            have heq2 := nodup_map_fst_inj _ (by rw [aggEntries_keys]; exact hsn)
              _ _ hmem_t hmem_s heq
            exact congrArg Prod.snd heq2
      · simp only at heq
        by_cases hkd : s.1 ∈ pyKeys d
        · rw [if_pos hkd] at heq
          exfalso
          have hk₀d : k₀ ∈ pyKeys d := (pyLookup_isSome_iff d k₀).mp (hpresd k₀ hk₀)
          rw [heq] at hk₀d
          exact hsuf1 s hs hk₀d
        · rw [if_neg hkd] at heq
          exfalso
          apply hdisj s hs
          rw [← heq]
          exact hk₀
  rw [hmain]
  rfl

/-! ### Remaining shared helpers -/

theorem str_append_left_cancel (a s1 s2 : String) (h : a ++ s1 = a ++ s2) : s1 = s2 := by
  have hd := congrArg String.data h
  rw [String.data_append, String.data_append] at hd
  exact String.ext (List.append_cancel_left hd)

theorem all_congr_mem {α : Type} (l : List α) (p q : α → Bool)
    (h : ∀ x ∈ l, p x = q x) : l.all p = l.all q := by
  induction l with
  | nil => rfl
  | cons x t ih =>
      rw [List.all_cons, List.all_cons, h x (by simp),
        ih (fun y hy => h y (by simp [hy]))]

theorem all_map_general {α β : Type} (l : List α) (f : α → β) (p : β → Bool) :
    (l.map f).all p = l.all (fun x => p (f x)) := by
  induction l with
  | nil => rfl
  | cons x t ih => rw [List.map_cons, List.all_cons, List.all_cons, ih]

theorem filter_map_eq_filterMap (l : List Record) (key : String) :
    (l.filter (fun d => decide (key ∈ pyKeys d))).map
        (fun d => (pyLookup d key).getD (Val.int 0)) =
      l.filterMap (fun d => pyLookup d key) := by
  induction l with
  | nil => rfl
  | cons d t ih =>
      rw [List.filter_cons, List.filterMap_cons]
      by_cases h : key ∈ pyKeys d
      · rw [if_pos (by simpa using h), List.map_cons, ih]
        have hs : (pyLookup d key).isSome := (pyLookup_isSome_iff d key).mpr h
        rcases hv : pyLookup d key with _ | v
        · rw [hv] at hs; simp at hs
        · rfl
      · rw [if_neg (by simpa using h), ih,
          (pyLookup_eq_none_iff d key).mpr h]

theorem summarise_col_values {α : Type} (f : List Val → α) (key : String)
    (c : Clumper) : summarise_col f key c = f (colValues c key) := by
  unfold summarise_col colValues
  rw [filter_map_eq_filterMap]

theorem subForVals_eq_groupOf (c : Clumper) (d : Record)
    (hpresd : ∀ k ∈ c.groups, (pyLookup d k).isSome) :
    subForVals c (dVals d c.groups) = groupOf c d := by
  unfold subForVals groupOf
  have hfilter : c.blob.filter (comboPred c.groups (dVals d c.groups)) =
      c.blob.filter (fun d' => c.groups.all
        (fun k => decide (pyLookup d' k = pyLookup d k))) := by
    apply List.filter_congr
    intro d' _
    unfold comboPred dVals
    rw [zip_self_map, all_map_general]
    apply all_congr_mem
    intro k hk
    have hs := hpresd k hk
    rcases hv : pyLookup d k with _ | v
    · rw [hv] at hs; simp at hs
    · rfl
  rw [hfilter]

theorem mergeDicts_keys (d1 d2 : Record) (m : List (String × String))
    (s1 s2 k : String) :
    k ∈ pyKeys (mergeDicts d1 d2 m s1 s2) ↔
      (k ∈ d1.map (fun e => if toSuffix d1 d2 m e.1 then e.1 ++ s1 else e.1) ∨
       k ∈ d2.map (fun e => if toSuffix d1 d2 m e.1 then e.1 ++ s2 else e.1)) := by
  unfold mergeDicts
  rw [pyKeys_pyDict_mem, List.map_append, List.mem_append]
  constructor
  · rintro (h | h)
    · left
      have := (pyKeys_pyDict_mem _ k).mp h
      rw [List.map_map] at this
      exact this
    · right
      have := (pyKeys_pyDict_mem _ k).mp h
      rw [List.map_map] at this
      exact this
  · rintro (h | h)
    · left
      apply (pyKeys_pyDict_mem _ k).mpr
      rw [List.map_map]
      exact h
    · right
      apply (pyKeys_pyDict_mem _ k).mpr
      rw [List.map_map]
      exact h

theorem lookupLast_rename_eq (l : List (String × Val)) (r : String → String)
    (k : String) (h : ∀ e ∈ l, (r e.1 = k ↔ e.1 = k)) :
    lookupLast (l.map (fun e => (r e.1, e.2))) k = lookupLast l k := by
  induction l with
  | nil => rfl
  | cons e t ih =>
      rw [List.map_cons, lookupLast_cons, lookupLast_cons,
        ih (fun e' he' => h e' (by simp [he']))]
      by_cases he : e.1 = k
      · rw [if_pos he, if_pos ((h e (by simp)).mpr he)]
      · rw [if_neg he, if_neg (fun hr => he ((h e (by simp)).mp hr))]

/-! ### Claim theorems -/

/-- Claim C3, counterexample: merging two records that share the
non-mapped key `"x"` with the *equal* suffixes `""`/`""` yields a single
key `"x"`, not two suffixed copies: the claim's "appears in the output
twice, once renamed with lsuffix and once with rsuffix" fails whenever
the two suffixed names coincide. -/
theorem merge_suffix_counterexample :
    mergeDicts [("x", Val.int 1)] [("x", Val.int 2)] [] "" "" = [("x", Val.int 2)] ∧
    (∀ n1 ∈ pyKeys (mergeDicts [("x", Val.int 1)] [("x", Val.int 2)] [] "" ""),
      ∀ n2 ∈ pyKeys (mergeDicts [("x", Val.int 1)] [("x", Val.int 2)] [] "" ""),
        n1 = n2) :=
  ⟨rfl, by decide⟩

/-- Claim C3 (amended): provided the two suffixes differ, every key
present in both records that is not a key name of the join mapping
appears in the merged record under both its lsuffix- and its
rsuffix-renamed name, and those two names are distinct; a key that
participates in the join mapping and is present on either side appears
under its own, unsuffixed name. -/
theorem merge_suffix_amended (d1 d2 : Record) (m : List (String × String))
    (s1 s2 : String) (hs : s1 ≠ s2) (x : String)
    (hx1 : x ∈ pyKeys d1) (hx2 : x ∈ pyKeys d2)
    (hxm : x ∉ m.map Prod.fst ++ m.map Prod.snd) :
    (x ++ s1) ∈ pyKeys (mergeDicts d1 d2 m s1 s2) ∧
    (x ++ s2) ∈ pyKeys (mergeDicts d1 d2 m s1 s2) ∧
    x ++ s1 ≠ x ++ s2 ∧
    (∀ k ∈ m.map Prod.fst ++ m.map Prod.snd,
      k ∈ pyKeys d1 ∨ k ∈ pyKeys d2 →
        k ∈ pyKeys (mergeDicts d1 d2 m s1 s2)) := by
  have hts : toSuffix d1 d2 m x = true :=
    (toSuffix_true_iff d1 d2 m x).mpr ⟨hx1, hx2, hxm⟩
  refine ⟨?_, ?_, ?_, ?_⟩
  · rw [mergeDicts_keys]
    left
    rcases List.mem_map.mp hx1 with ⟨e, he, rfl⟩
    apply List.mem_map.mpr
    exact ⟨e, he, by rw [hts]; rfl⟩
  · rw [mergeDicts_keys]
    right
    rcases List.mem_map.mp hx2 with ⟨e, he, rfl⟩
    apply List.mem_map.mpr
    exact ⟨e, he, by rw [hts]; rfl⟩
  · intro h
    exact hs (str_append_left_cancel x s1 s2 h)
  · intro k hk hpresent
    have htk : toSuffix d1 d2 m k = false := by
      rcases hb : toSuffix d1 d2 m k with _ | _
      · rfl
      · exact absurd hk ((toSuffix_true_iff d1 d2 m k).mp hb).2.2
    rw [mergeDicts_keys]
    rcases hpresent with hp | hp
    · left
      rcases List.mem_map.mp hp with ⟨e, he, rfl⟩
      apply List.mem_map.mpr
      exact ⟨e, he, by rw [htk]; rfl⟩
    · right
      rcases List.mem_map.mp hp with ⟨e, he, rfl⟩
      apply List.mem_map.mpr
      exact ⟨e, he, by rw [htk]; rfl⟩

/-- Claim C3, witness: the spec's own scenario — the shared non-mapped
key `"x"` with suffixes `""`/`"_joined"` yields both `"x"` and
`"x_joined"` in the merged record, and the mapped keys stay
unsuffixed. -/
theorem merge_suffix_witness :
    (("" : String) ≠ "_joined" ∧ "x" ∈ pyKeys [("x", Val.int 1), ("a", Val.int 5)] ∧
      "x" ∈ pyKeys [("x", Val.int 2), ("b", Val.int 1)] ∧
      "x" ∉ ([("a", "b")] : List (String × String)).map Prod.fst ++
        ([("a", "b")] : List (String × String)).map Prod.snd) ∧
    (("x" ++ "") ∈ pyKeys (mergeDicts [("x", Val.int 1), ("a", Val.int 5)]
        [("x", Val.int 2), ("b", Val.int 1)] [("a", "b")] "" "_joined") ∧
     ("x" ++ "_joined") ∈ pyKeys (mergeDicts [("x", Val.int 1), ("a", Val.int 5)]
        [("x", Val.int 2), ("b", Val.int 1)] [("a", "b")] "" "_joined") ∧
     "x" ++ "" ≠ "x" ++ "_joined" ∧
     (∀ k ∈ ([("a", "b")] : List (String × String)).map Prod.fst ++
          ([("a", "b")] : List (String × String)).map Prod.snd,
        k ∈ pyKeys [("x", Val.int 1), ("a", Val.int 5)] ∨
          k ∈ pyKeys [("x", Val.int 2), ("b", Val.int 1)] →
          k ∈ pyKeys (mergeDicts [("x", Val.int 1), ("a", Val.int 5)]
            [("x", Val.int 2), ("b", Val.int 1)] [("a", "b")] "" "_joined"))) :=
  ⟨⟨by decide, by decide, by decide, by decide⟩,
   merge_suffix_amended [("x", Val.int 1), ("a", Val.int 5)]
     [("x", Val.int 2), ("b", Val.int 1)] [("a", "b")] "" "_joined"
     (by decide) "x" (by decide) (by decide) (by decide)⟩

/-- Claim C4: for every pair of collections, join mapping and suffixes,
the left-join record sequence is a permutation of the inner-join record
sequence together with exactly one unmerged copy of each left record
that matches zero right records; hence the inner-join row count never
exceeds the left-join row count, and every inner-join output record
comes from a left/right pair whose mapped-key values are present and
pairwise equal. -/
theorem left_inner_join_relation (c o : Clumper) (m : List (String × String))
    (s1 s2 : String) :
    ((left_join c o m s1 s2).blob).Perm
        ((inner_join c o m s1 s2).blob ++
          c.blob.filter (fun d => (innerMatches d o.blob m s1 s2).isEmpty)) ∧
    (inner_join c o m s1 s2).blob.length ≤ (left_join c o m s1 s2).blob.length ∧
    (∀ r ∈ (inner_join c o m s1 s2).blob, ∃ di ∈ c.blob, ∃ dj ∈ o.blob,
      r = mergeDicts di dj m s1 s2 ∧
      ∀ p ∈ m, ∃ v, pyLookup di p.1 = some v ∧ pyLookup dj p.2 = some v) := by
  have hperm : ((left_join c o m s1 s2).blob).Perm
      ((inner_join c o m s1 s2).blob ++
        c.blob.filter (fun d => (innerMatches d o.blob m s1 s2).isEmpty)) :=
    join_split c.blob (fun di => innerMatches di o.blob m s1 s2)
  refine ⟨hperm, ?_, ?_⟩
  · have hlen := hperm.length_eq
    rw [List.length_append] at hlen
    omega
  · intro r hr
    rcases List.mem_flatMap.mp hr with ⟨di, hdi, hr'⟩
    rcases mem_innerMatches di o.blob m s1 s2 r hr' with ⟨dj, hdj, hmatch, heq⟩
    exact ⟨di, hdi, dj, hdj, heq, (matchB_iff di dj m).mp hmatch⟩

/-- Claim C5: the match test shared by `left_join` and `inner_join`
succeeds exactly when every mapped key pair is present on its
respective side with equal values; a record missing any mapped key
never matches (no wildcard semantics). -/
theorem join_match_characterization (di dj : Record)
    (m : List (String × String)) :
    matchB di dj m = true ↔
      ∀ p ∈ m, ∃ v, pyLookup di p.1 = some v ∧ pyLookup dj p.2 = some v :=
  matchB_iff di dj m

/-- Claim C6, counterexample: for the matching pair
`{'a': 1}` / `{'b': 1, 'a': 999}` under the mapping `a → b`, the merged
record stores `999` — the *right* record's value — under the mapped key
`"a"`, not the left record's `1`. -/
theorem mapped_key_value_counterexample :
    matchB [("a", Val.int 1)] [("b", Val.int 1), ("a", Val.int 999)]
      [("a", "b")] = true ∧
    pyLookup (mergeDicts [("a", Val.int 1)] [("b", Val.int 1), ("a", Val.int 999)]
      [("a", "b")] "" "_joined") "a" = some (Val.int 999) ∧
    pyLookup [("a", Val.int 1)] "a" = some (Val.int 1) ∧
    (some (Val.int 999) : Option Val) ≠ some (Val.int 1) :=
  ⟨by decide, by decide, by decide, by decide⟩

/-- Claim C6 (amended): under a join mapping, the merged record's value
under a mapped key is the right record's value when the key is present
in the right record, otherwise the left record's (the union gives the
right side precedence); when the key is mapped to itself and the pair
matches, both versions are equal, so the value is also the left
record's. -/
theorem mapped_key_value_amended (d1 d2 : Record) (m : List (String × String))
    (s1 s2 : String) (k : String)
    (hk : k ∈ m.map Prod.fst ++ m.map Prod.snd)
    (hnd1 : NodupKeys d1) (hnd2 : NodupKeys d2)
    (halias : ∀ k' ∈ pyKeys d1 ++ pyKeys d2, toSuffix d1 d2 m k' = true →
      k' ++ s1 ≠ k ∧ k' ++ s2 ≠ k) :
    pyLookup (mergeDicts d1 d2 m s1 s2) k = (pyLookup d2 k).or (pyLookup d1 k) ∧
    ((k, k) ∈ m → matchB d1 d2 m = true →
      pyLookup (mergeDicts d1 d2 m s1 s2) k = pyLookup d1 k) := by
  have htk : toSuffix d1 d2 m k = false := by
    rcases hb : toSuffix d1 d2 m k with _ | _
    · rfl
    · exact absurd hk ((toSuffix_true_iff d1 d2 m k).mp hb).2.2
  have hside : ∀ (d : Record) (s : String), NodupKeys d →
      (∀ e ∈ d, e.1 ∈ pyKeys d1 ++ pyKeys d2) →
      (∀ k' ∈ pyKeys d1 ++ pyKeys d2, toSuffix d1 d2 m k' = true → k' ++ s ≠ k) →
      lookupLast (d.map (fun e =>
        (if toSuffix d1 d2 m e.1 then e.1 ++ s else e.1, e.2))) k = pyLookup d k := by
    intro d s hnd hmem hal
    rw [lookupLast_rename_eq d (fun y => if toSuffix d1 d2 m y then y ++ s else y) k ?_]
    · exact lookupLast_eq_pyLookup d k hnd
    · intro e he
      show (if toSuffix d1 d2 m e.1 then e.1 ++ s else e.1) = k ↔ e.1 = k
      rcases hb : toSuffix d1 d2 m e.1 with _ | _
      · simp
      · rw [if_pos rfl]
        constructor
        · intro hr
          exact absurd hr (hal e.1 (hmem e he) hb)
        · intro he1
          have hcontra : toSuffix d1 d2 m k = true := he1 ▸ hb
          rw [htk] at hcontra
          exact Bool.noConfusion hcontra
  have hmerge : pyLookup (mergeDicts d1 d2 m s1 s2) k =
      (pyLookup d2 k).or (pyLookup d1 k) := by
    rw [mergeDicts_lookup]
    rw [hside d1 s1 hnd1 (fun e he => List.mem_append_left _
      (List.mem_map_of_mem Prod.fst he)) (fun k' hk' hb => (halias k' hk' hb).1)]
    rw [hside d2 s2 hnd2 (fun e he => List.mem_append_right _
      (List.mem_map_of_mem Prod.fst he)) (fun k' hk' hb => (halias k' hk' hb).2)]
  refine ⟨hmerge, ?_⟩
  intro hkk hmatch
  rcases (matchB_iff d1 d2 m).mp hmatch (k, k) hkk with ⟨v, hv1, hv2⟩
  rw [hmerge, hv1, hv2]
  rfl

/-- Claim C6, witness: identity mapping `a → a` on two matching records
sharing the non-mapped key `"c"`; the mapped key's merged value is the
left record's value. -/
theorem mapped_key_value_witness :
    ("a" ∈ ([("a", "a")] : List (String × String)).map Prod.fst ++
        ([("a", "a")] : List (String × String)).map Prod.snd ∧
      NodupKeys [("a", Val.int 1), ("c", Val.int 5)] ∧
      NodupKeys [("a", Val.int 1), ("c", Val.int 6)]) ∧
    (pyLookup (mergeDicts [("a", Val.int 1), ("c", Val.int 5)]
        [("a", Val.int 1), ("c", Val.int 6)] [("a", "a")] "" "_joined") "a" =
      (pyLookup [("a", Val.int 1), ("c", Val.int 6)] "a").or
        (pyLookup [("a", Val.int 1), ("c", Val.int 5)] "a") ∧
     (("a", "a") ∈ ([("a", "a")] : List (String × String)) →
       matchB [("a", Val.int 1), ("c", Val.int 5)]
         [("a", Val.int 1), ("c", Val.int 6)] [("a", "a")] = true →
       pyLookup (mergeDicts [("a", Val.int 1), ("c", Val.int 5)]
          [("a", Val.int 1), ("c", Val.int 6)] [("a", "a")] "" "_joined") "a" =
        pyLookup [("a", Val.int 1), ("c", Val.int 5)] "a")) :=
  ⟨⟨by decide, by decide, by decide⟩,
   mapped_key_value_amended [("a", Val.int 1), ("c", Val.int 5)]
     [("a", Val.int 1), ("c", Val.int 6)] [("a", "a")] "" "_joined" "a"
     (by decide) (by decide) (by decide) (by decide)⟩

/-- Claim C7: every aggregation through `summarise_col` applies the
reducer to exactly the sequence of values present under the column
(records lacking the column are skipped, not an error); on the spec's
example, `sum("b") = 20`, `count("b") = 3` and `n_unique("b") = 2`. -/
theorem aggregation_skips_missing :
    (∀ (α : Type) (f : List Val → α) (key : String) (c : Clumper),
       summarise_col f key c = f (colValues c key)) ∧
    Clumper.sum missingColExample "b" = Except.ok (some (Val.int 20)) ∧
    Clumper.count missingColExample "b" = Val.int 3 ∧
    Clumper.n_unique missingColExample "b" = Val.int 2 :=
  ⟨fun _ f key c => summarise_col_values f key c, rfl, rfl, rfl⟩

/-- Claim C8, counterexample: on an empty collection, `sum` returns
Python `None` (its decorator is `return_value_if_empty(value=None)` in
the source), not the `0` the claim states. -/
theorem empty_sentinels_counterexample :
    Clumper.sum ⟨[], []⟩ "b" = Except.ok none ∧
    Clumper.sum ⟨[], []⟩ "b" ≠ Except.ok (some (Val.int 0)) := by
  constructor
  · rfl
  · intro h
    rw [show Clumper.sum ⟨[], []⟩ "b" = Except.ok none from rfl] at h
    exact Option.noConfusion (Except.ok.inj h)

/-- Claim C8 (amended): when zero values are present under the column,
`count` and `n_unique` return `0` and `unique` returns the empty list,
but `sum` — like `mean`, `min` and `max` — returns `None`. -/
theorem empty_sentinels_amended (c : Clumper) (col : String)
    (h : colValues c col = []) :
    Clumper.sum c col = Except.ok none ∧
    Clumper.mean c col = Except.ok none ∧
    Clumper.min c col = Except.ok none ∧
    Clumper.max c col = Except.ok none ∧
    Clumper.count c col = Val.int 0 ∧
    Clumper.n_unique c col = Val.int 0 ∧
    Clumper.unique c col = Val.list [] := by
  have he : (colValues c col).isEmpty := by rw [h]; rfl
  unfold Clumper.sum Clumper.mean Clumper.min Clumper.max Clumper.count
    Clumper.n_unique Clumper.unique return_value_if_empty
  refine ⟨?_, ?_, ?_, ?_, ?_, ?_, ?_⟩ <;> rw [if_pos he]

/-- Claim C8, witness: the sentinels on the empty collection. -/
theorem empty_sentinels_witness :
    colValues ⟨[], []⟩ "b" = [] ∧
    (Clumper.sum ⟨[], []⟩ "b" = Except.ok none ∧
     Clumper.mean ⟨[], []⟩ "b" = Except.ok none ∧
     Clumper.min ⟨[], []⟩ "b" = Except.ok none ∧
     Clumper.max ⟨[], []⟩ "b" = Except.ok none ∧
     Clumper.count ⟨[], []⟩ "b" = Val.int 0 ∧
     Clumper.n_unique ⟨[], []⟩ "b" = Val.int 0 ∧
     Clumper.unique ⟨[], []⟩ "b" = Val.list []) :=
  ⟨rfl, empty_sentinels_amended ⟨[], []⟩ "b" rfl⟩

/-- Claim C9, counterexample: `group_by` does not leave the receiver
unchanged — it assigns the receiver's group-key state in place (and
returns the receiver itself), so the post-call receiver differs from
the original collection. -/
theorem group_by_mutates_counterexample :
    (group_byS ⟨[], []⟩ ["a"]).2 ≠ (⟨[], []⟩ : Clumper) := by
  decide

/-- Claim C9 (amended): every modelled verb except `group_by` and
`ungroup` leaves the receiver unchanged and returns a freshly
constructed collection; `group_by` and `ungroup` instead set the
receiver's group keys in place, preserving its records, and return the
receiver itself. -/
theorem verbs_mutation_amended (c other : Clumper) (n : Nat)
    (m : List (String × String)) (s1 s2 : String) (specs : List AggSpec)
    (cols : List String) :
    (headS c n).2 = c ∧ (tailS c n).2 = c ∧
    (left_joinS c other m s1 s2).2 = c ∧ (inner_joinS c other m s1 s2).2 = c ∧
    (aggS c specs).2 = c ∧ (transformS c specs).2 = c ∧
    (group_byS c cols).2 = ⟨c.blob, cols⟩ ∧
    (group_byS c cols).1 = (group_byS c cols).2 ∧
    (ungroupS c).2 = ⟨c.blob, []⟩ ∧ (ungroupS c).1 = (ungroupS c).2 :=
  ⟨rfl, rfl, rfl, rfl, rfl, rfl, rfl, rfl, rfl, rfl⟩

/-- Claim C10: evaluating `tail` at the docstring's own collection
shows the bug — `tail(2)` of `[{'a':1},{'a':2},{'a':3},{'a':4}]`
returns `[{'a':3},{'a':2}]` (the code indexes `blob[-i]` over
`range(len - n, len)`), not the last two elements
`[{'a':3},{'a':4}]`. -/
theorem tail_code_bug_eval :
    (Clumper.tail tailExample 2).blob = [[("a", Val.int 3)], [("a", Val.int 2)]] ∧
    ([[("a", Val.int 3)], [("a", Val.int 2)]] : List Record) ≠
      [[("a", Val.int 3)], [("a", Val.int 4)]] :=
  ⟨by decide, by decide⟩

/-- Claim C2, counterexample: on the collection `[{'a': 1}, {}]` grouped
by `"a"`, the partitioner does not enumerate groups at all — the filter
`keep(lambda d: d['a'] == value)` raises `KeyError` on the record
lacking the group key, so `_subsets` fails instead of producing the
group for the combination `a = 1`. -/
theorem group_partition_counterexample :
    subsetsE missingGroupKeyExample = Except.error () := rfl

/-- Claim C2 (amended): provided every record possesses all (distinct)
group keys, the partitioner succeeds and enumerates exactly one group
per element of the full Cartesian product of the per-key distinct-value
lists — the group count is the product of the distinct-value counts,
the combinations are pairwise distinct and are exactly the tuples
drawn from the distinct-value lists — and each group holds exactly the
records whose values under the group keys equal the combination
(combinations matched by no record still yield an empty group). -/
theorem group_partition_amended (c : Clumper)
    (hnd : c.groups.Nodup)
    (hpres : ∀ d ∈ c.blob, ∀ k ∈ c.groups, (pyLookup d k).isSome) :
    subsetsE c = Except.ok ((groupCombos c).map (fun combo =>
        (⟨c.blob.filter (fun d => combo.all
          (fun e => decide (pyLookup d e.1 = some e.2))), c.groups⟩ : Clumper))) ∧
    (groupCombos c).length =
      ((c.groups.map (fun k => (uniqueVals c k).length)).prod) ∧
    (groupCombos c).Nodup ∧
    (∀ combo, combo ∈ groupCombos c ↔ ∃ vs, vs.length = c.groups.length ∧
        List.Forall₂ (fun v k => v ∈ uniqueVals c k) vs c.groups ∧
        combo = c.groups.zip vs) := by
  refine ⟨subsetsE_ok c hpres, ?_, ?_, ?_⟩
  · unfold groupCombos
    rw [List.length_map, pyProduct_length, List.map_map]
    rfl
  · rw [groupCombos_zip c hnd]
    apply List.Nodup.map_on
    · intro vs hvs vs' hvs' heq
      have h1 : vs.length = c.groups.length := by
        rw [length_of_mem_pyProduct _ _ hvs, List.length_map]
      have h2 : vs'.length = c.groups.length := by
        rw [length_of_mem_pyProduct _ _ hvs', List.length_map]
      have hsnd := congrArg (List.map Prod.snd) heq
      rw [List.map_snd_zip _ _ (by omega), List.map_snd_zip _ _ (by omega)] at hsnd
      exact hsnd
    · refine pyProduct_nodup _ (fun xs hxs => ?_)
      rcases List.mem_map.mp hxs with ⟨k, -, rfl⟩
      exact pyDedup_nodup _
  · intro combo
    rw [groupCombos_zip c hnd]
    constructor
    · intro hmem
      rcases List.mem_map.mp hmem with ⟨vs, hvs, rfl⟩
      have h1 : vs.length = c.groups.length := by
        rw [length_of_mem_pyProduct _ _ hvs, List.length_map]
      exact ⟨vs, h1, List.forall₂_map_right_iff.mp ((mem_pyProduct _ _).mp hvs), rfl⟩
    · rintro ⟨vs, hlen, hall, rfl⟩
      apply List.mem_map.mpr
      exact ⟨vs, (mem_pyProduct _ _).mpr (List.forall₂_map_right_iff.mpr hall), rfl⟩

/-- Claim C2, witness: the two-key collection in which the combination
`(1, 5)` is observed in no record; the partitioner still produces all
four groups of the Cartesian product, one of them empty. -/
theorem group_partition_witness :
    (emptyGroupExample.groups.Nodup ∧
      ∀ d ∈ emptyGroupExample.blob, ∀ k ∈ emptyGroupExample.groups,
        (pyLookup d k).isSome) ∧
    (subsetsE emptyGroupExample = Except.ok ((groupCombos emptyGroupExample).map
        (fun combo => (⟨emptyGroupExample.blob.filter (fun d => combo.all
          (fun e => decide (pyLookup d e.1 = some e.2))),
          emptyGroupExample.groups⟩ : Clumper))) ∧
     (groupCombos emptyGroupExample).length =
       ((emptyGroupExample.groups.map
         (fun k => (uniqueVals emptyGroupExample k).length)).prod) ∧
     (groupCombos emptyGroupExample).Nodup ∧
     (∀ combo, combo ∈ groupCombos emptyGroupExample ↔ ∃ vs,
        vs.length = emptyGroupExample.groups.length ∧
        List.Forall₂ (fun v k => v ∈ uniqueVals emptyGroupExample k) vs
          emptyGroupExample.groups ∧
        combo = emptyGroupExample.groups.zip vs)) :=
  ⟨⟨by decide, by decide⟩,
   group_partition_amended emptyGroupExample (by decide) (by decide)⟩

/-- Claim C1, counterexample: grouped by `"a"` with the aggregation
spec `s = ("a", sum)`, the record `{'a': 1, 's': 5, 's_joined': 7}` is
*not* preserved by `transform`: the summary's colliding key `"s"` is
renamed to `"s_joined"` by the join merge and overwrites the record's
original `"s_joined"` binding (7 becomes 1), even though the row count
is preserved. -/
theorem transform_claim_counterexample :
    transformE suffixClashExample [("s", "a", sumIntF)] =
      Except.ok ⟨[[("a", Val.int 1), ("s", Val.int 5), ("s_joined", Val.int 1)]],
        ["a"]⟩ ∧
    pyLookup [("a", Val.int 1), ("s", Val.int 5), ("s_joined", Val.int 1)]
        "s_joined" ≠
      pyLookup [("a", Val.int 1), ("s", Val.int 5), ("s_joined", Val.int 7)]
        "s_joined" :=
  ⟨rfl, by decide⟩

/-- Claim C1 (amended): for a non-empty collection grouped by distinct
keys that every record possesses, and aggregation specs whose names
avoid the group keys and whose `"_joined"`-suffixed forms collide with
no record key and no other spec name, `transform` succeeds, preserves
the row count and the group state, preserves every binding of every
original record positionally, and extends each record with each spec's
reducer applied to the values of its own group. -/
theorem transform_rowcount_amended (c : Clumper) (specs : List AggSpec)
    (hg : c.groups ≠ []) (hgn : c.groups.Nodup) (hne : c.blob ≠ [])
    (hrec : ∀ d ∈ c.blob, NodupKeys d)
    (hpres : ∀ d ∈ c.blob, ∀ k ∈ c.groups, (pyLookup d k).isSome)
    (hsn : (specs.map (fun s => s.1)).Nodup)
    (hdisj : ∀ s ∈ specs, s.1 ∉ c.groups)
    (hsuf1 : ∀ s ∈ specs, ∀ d ∈ c.blob, (s.1 ++ "_joined") ∉ pyKeys d)
    (hsuf2 : ∀ s ∈ specs, ∀ t ∈ specs, s.1 ++ "_joined" ≠ t.1) :
    ∃ out : Clumper, transformE c specs = Except.ok out ∧
      out.blob.length = c.blob.length ∧ out.groups = c.groups ∧
      ∀ i, (hi : i < c.blob.length) → (hi' : i < out.blob.length) →
        ((∀ k v, pyLookup (c.blob.get ⟨i, hi⟩) k = some v →
            pyLookup (out.blob.get ⟨i, hi'⟩) k = some v) ∧
         (∀ s ∈ specs,
            pyLookup (out.blob.get ⟨i, hi'⟩)
                (if s.1 ∈ pyKeys (c.blob.get ⟨i, hi⟩) then s.1 ++ "_joined"
                 else s.1) =
              some (s.2.2 (colValues (groupOf c (c.blob.get ⟨i, hi⟩)) s.2.1)))) := by
  refine ⟨_, transformE_structure c specs hg hgn hpres, ?_, rfl, ?_⟩
  · show (c.blob.map _).length = c.blob.length
    rw [List.length_map]
  · intro i hi hi'
    have hdmem : c.blob.get ⟨i, hi⟩ ∈ c.blob := List.get_mem c.blob i hi
    have hout : (c.blob.map (fun d => mergeDicts d
          (summaryFor c specs (dVals d c.groups))
          (c.groups.map (fun k => (k, k))) "" "_joined")).get ⟨i, hi'⟩ =
        mergeDicts (c.blob.get ⟨i, hi⟩)
          (summaryFor c specs (dVals (c.blob.get ⟨i, hi⟩) c.groups))
          (c.groups.map (fun k => (k, k))) "" "_joined" := by
      rw [List.get_map]
    constructor
    · intro k v hkv
      rw [show ((⟨c.blob.map (fun d => mergeDicts d
            (summaryFor c specs (dVals d c.groups))
            (c.groups.map (fun k => (k, k))) "" "_joined"), c.groups⟩ :
          Clumper)).blob.get ⟨i, hi'⟩ = _ from hout]
      exact transform_merge_preserves c specs _ hgn (hrec _ hdmem) hsn hdisj
        (fun s hs => hsuf1 s hs _ hdmem) k v hkv
    · intro s hs
      rw [show ((⟨c.blob.map (fun d => mergeDicts d
            (summaryFor c specs (dVals d c.groups))
            (c.groups.map (fun k => (k, k))) "" "_joined"), c.groups⟩ :
          Clumper)).blob.get ⟨i, hi'⟩ = _ from hout]
      have hval := transform_merge_spec_value c specs (c.blob.get ⟨i, hi⟩) hgn
        (fun k hk => hpres _ hdmem k hk) hsn hdisj
        (fun s' hs' => hsuf1 s' hs' _ hdmem) hsuf2 s hs
      rw [hval, summarise_col_values,
        subForVals_eq_groupOf c _ (fun k hk => hpres _ hdmem k hk)]

/-- Claim C1, witness: the `transform` docstring's collection and specs
(`b_sum = ("b", sum)`, `b_uniq = ("b", unique)`). -/
theorem transform_rowcount_witness :
    (doctestExample.groups ≠ [] ∧ doctestExample.blob ≠ [] ∧
      doctestExample.groups.Nodup) ∧
    (∃ out : Clumper, transformE doctestExample
        [("b_sum", "b", sumIntF), ("b_uniq", "b", uniqListF)] = Except.ok out ∧
      out.blob.length = doctestExample.blob.length ∧
      out.groups = doctestExample.groups ∧
      ∀ i, (hi : i < doctestExample.blob.length) → (hi' : i < out.blob.length) →
        ((∀ k v, pyLookup (doctestExample.blob.get ⟨i, hi⟩) k = some v →
            pyLookup (out.blob.get ⟨i, hi'⟩) k = some v) ∧
         (∀ s ∈ [(("b_sum" : String), ("b" : String), sumIntF),
              ("b_uniq", "b", uniqListF)],
            pyLookup (out.blob.get ⟨i, hi'⟩)
                (if s.1 ∈ pyKeys (doctestExample.blob.get ⟨i, hi⟩) then
                  s.1 ++ "_joined" else s.1) =
              some (s.2.2 (colValues (groupOf doctestExample
                (doctestExample.blob.get ⟨i, hi⟩)) s.2.1))))) :=
  ⟨⟨by decide, by decide, by decide⟩,
   transform_rowcount_amended doctestExample
     [("b_sum", "b", sumIntF), ("b_uniq", "b", uniqListF)]
     (by decide) (by decide) (by decide) (by decide) (by decide) (by decide)
     (by decide) (by decide) (by decide)⟩

end CL
